import Mathlib

/-!
Verification development for the request/response transformation layer of a
chat-completion proxy.  The definitions below are a shallow embedding of the
TypeScript source (`transform.ts`): the thinking-block text codec, the format
detector, the two request normalizers and the thinking-consistency filter.
Strings are modelled as Lean `String` / `List Char`; JavaScript numbers that
matter here are integers; fallible code returns `Except`.
-/

namespace Proxy

/-! ## JavaScript string primitives -/

/-- The character `\`` (backtick). -/
def backtick : Char := Char.ofNat 96

/-- The character `\\` (backslash). -/
def bslash : Char := Char.ofNat 92

/-- ECMAScript whitespace, as trimmed by `String.prototype.trim`. -/
def isJsWs (c : Char) : Bool :=
  c == '\t' || c == '\n' || c == '\x0b' || c == '\x0c' || c == '\r' || c == ' ' ||
  c == ' ' || c == ' ' || (0x2000 ≤ c.toNat && c.toNat ≤ 0x200a) ||
  c == ' ' || c == ' ' || c == ' ' || c == ' ' ||
  c == '　' || c == '﻿'

/-- `String.prototype.trim` on a character list. -/
def jsTrim (l : List Char) : List Char :=
  ((l.dropWhile isJsWs).reverse.dropWhile isJsWs).reverse

/-- `String.prototype.trim`. -/
def jsTrimStr (s : String) : String := ⟨jsTrim s.data⟩

/-- Drop an exact prefix, or fail. -/
def dropPfx? : List Char → List Char → Option (List Char)
  | [], l => some l
  | _ :: _, [] => none
  | p :: ps, c :: cs => if p = c then dropPfx? ps cs else none

/-- Drop an exact suffix, or fail. -/
def dropSfx? (s l : List Char) : Option (List Char) :=
  (dropPfx? s.reverse l.reverse).map List.reverse

/-- `text.replace(/`/g, "\\`")` on a character list. -/
def escList : List Char → List Char
  | [] => []
  | c :: cs => if c = backtick then bslash :: backtick :: escList cs else c :: escList cs

/-- `text.replace(/\\`/g, "`")` on a character list (left-to-right,
non-overlapping, exactly as the JavaScript global replace scans). -/
def unescList : List Char → List Char
  | [] => []
  | [c] => [c]
  | c :: d :: cs =>
    if c = bslash ∧ d = backtick then backtick :: unescList cs
    else c :: unescList (d :: cs)

/-! ## CRC-32 (zlib `crc32` over the UTF-8 bytes, rendered as 8 hex digits) -/

/-- One shift step of the reflected CRC-32 (polynomial `0xEDB88320`). -/
def crcStep (c : Nat) : Nat :=
  if c % 2 = 1 then (c / 2) ^^^ 0xEDB88320 else c / 2

/-- Fold one byte into the running CRC. -/
def crc32Byte (c b : Nat) : Nat := crcStep^[8] (c ^^^ b)

/-- CRC-32 of a byte list. -/
def crc32Bytes (bytes : List Nat) : Nat :=
  (bytes.foldl crc32Byte 0xFFFFFFFF) ^^^ 0xFFFFFFFF

/-- UTF-8 encoding of one scalar value, as byte values. -/
def utf8EncodeChar (c : Char) : List Nat :=
  let n := c.toNat
  if n < 0x80 then [n]
  else if n < 0x800 then [0xC0 + n / 64, 0x80 + n % 64]
  else if n < 0x10000 then [0xE0 + n / 4096, 0x80 + (n / 64) % 64, 0x80 + n % 64]
  else [0xF0 + n / 262144, 0x80 + (n / 4096) % 64, 0x80 + (n / 64) % 64, 0x80 + n % 64]

/-- UTF-8 bytes of a character list. -/
def utf8Bytes (l : List Char) : List Nat := l.foldr (fun c acc => utf8EncodeChar c ++ acc) []

/-- Hexadecimal digit character (lowercase), for digit values below 16. -/
def hexDigit (n : Nat) : Char :=
  if n < 10 then Char.ofNat (48 + n) else Char.ofNat (87 + n)

/-- Hex digits of `n`, most significant first; at most `fuel` digits. -/
def natToHexAux : Nat → Nat → List Char → List Char
  | 0, _, acc => acc
  | fuel + 1, n, acc =>
    if n = 0 then acc else natToHexAux fuel (n / 16) (hexDigit (n % 16) :: acc)

/-- `n.toString(16)` for the 32-bit values produced by the CRC. -/
def natToHex (n : Nat) : List Char :=
  if n = 0 then ['0'] else natToHexAux 8 n []

/-- `padStart(8, "0")`. -/
def padLeft8 (l : List Char) : List Char := List.replicate (8 - l.length) '0' ++ l

/-- `calculateCrc32`: CRC-32 of the UTF-8 bytes of `text`, as a lowercase
hex string left-padded with zeros to 8 characters. -/
def calculateCrc32 (text : String) : String :=
  ⟨padLeft8 (natToHex (crc32Bytes (utf8Bytes text.data)))⟩

/-! ## Thinking Block Codec -/

/-- `encodeThinkingBlock`: escape every backtick, then emit the fenced
envelope; the `[SIG=...,CRC=...]` trailer is added only for a truthy
(non-empty) signature, with the CRC computed over the escaped content. -/
def encodeThinkingBlock (thinking : String) (signature : Option String := none) : String :=
  let escapedThinking : String := ⟨escList thinking.data⟩
  let sigTag : String :=
    match signature with
    | some s =>
        if s = "" then ""
        else "\n[SIG=" ++ s ++ ",CRC=" ++ calculateCrc32 escapedThinking ++ "]"
    | none => ""
  "```thinking\n[Thinking]\n" ++ escapedThinking ++ sigTag ++ "\n```\n\n"

/-- The opening fence and header line of the envelope. -/
def headerChars : List Char := "```thinking\n[Thinking]\n".data

/-- The closing fence (a newline followed by three backticks). -/
def fenceChars : List Char := "\n```".data

/-- The literal that opens the signature trailer. -/
def sigHeadChars : List Char := "\n[SIG=".data

/-- The literal separating signature from CRC in the trailer. -/
def crcSepChars : List Char := ",CRC=".data

/-- The signature character class `[^,\]]+` as a greedy run. -/
def takeSig (r : List Char) : List Char :=
  r.takeWhile fun c => !(c == ',' || c == ']')

/-- The CRC character class `[^\]]+` as a greedy run. -/
def takeCrc (r : List Char) : List Char :=
  r.takeWhile fun c => !(c == ']')

/-- The CRC part of a whole-input trailer: a non-empty `[^\]]+` run followed
by exactly the closing bracket. -/
def trailerCrcPart (sig r2 : List Char) : Option (List Char × List Char) :=
  match takeCrc r2 with
  | [] => none
  | crc =>
    match r2.drop crc.length with
    | [']'] => some (sig, crc)
    | _ => none

/-- The signature part of a whole-input trailer: a non-empty `[^,\]]+` run
followed by the literal `,CRC=`, then the CRC part. -/
def trailerSigPart (r1 : List Char) : Option (List Char × List Char) :=
  match takeSig r1 with
  | [] => none
  | sig =>
    match dropPfx? crcSepChars (r1.drop sig.length) with
    | none => none
    | some r2 => trailerCrcPart sig r2

/-- Parse a complete trailer `\n[SIG=<sig>,CRC=<crc>]` spanning the whole
input, with the regex character classes `[^,\]]+` for the signature and
`[^\]]+` for the CRC (greedy runs, as the backtracking regex resolves them). -/
def trailerSuffix? (l : List Char) : Option (List Char × List Char) :=
  match dropPfx? sigHeadChars l with
  | none => none
  | some r1 => trailerSigPart r1

/-- Split the matched region between header and closing fence into the lazy
content group and the optional trailer: the regex commits to the earliest
position at which a valid trailer reaches the end of the region. -/
def scanContentTrailer : List Char → List Char × Option (List Char × List Char)
  | [] => ([], none)
  | c :: rest =>
    match trailerSuffix? (c :: rest) with
    | some tc => ([], some tc)
    | none =>
      match scanContentTrailer rest with
      | (content, tr) => (c :: content, tr)

/-- The part of `decodeThinkingBlock` operating on the region between the
header and the closing fence: split off the optional trailer, require a
non-empty trimmed content and a present trailer, recompute the CRC over the
(trimmed) escaped content, and unescape backticks on success. -/
def decodeMiddle (middle : List Char) : Option (String × String) :=
  match scanContentTrailer middle with
  | (_, none) => none
  | (content, some (sig, crc)) =>
    if (jsTrim content).isEmpty then none
    else if calculateCrc32 ⟨jsTrim content⟩ = (⟨crc⟩ : String) then
      some (⟨unescList (jsTrim content)⟩, ⟨sig⟩)
    else none

/-- `decodeThinkingBlock`: match the anchored envelope regex (exact header
prefix, exact closing-fence suffix, then the lazy content group with its
optional trailer); return the thinking text and signature or `none`. -/
def decodeThinkingBlock (text : String) : Option (String × String) :=
  match dropPfx? headerChars text.data with
  | none => none
  | some rest =>
    match dropSfx? fenceChars rest with
    | none => none
    | some middle => decodeMiddle middle

/-! ## JSON values and `JSON.parse` -/

/-- JSON values; numbers are kept as a decimal mantissa/exponent pair. -/
inductive JsonVal where
  | null
  | bool (b : Bool)
  | num (mantissa : Int) (exp10 : Int)
  | str (s : String)
  | arr (elems : List JsonVal)
  | obj (fields : List (String × JsonVal))

/-- JavaScript truthiness of a JSON value (`NaN` aside). -/
def jsonTruthy : JsonVal → Bool
  | .null => false
  | .bool b => b
  | .num m _ => !(m = 0)
  | .str s => !(s = "")
  | .arr _ => true
  | .obj _ => true

/-- JSON whitespace (`space`, `tab`, `newline`, `carriage return`). -/
def isJsonWs (c : Char) : Bool := c == ' ' || c == '\t' || c == '\n' || c == '\r'

/-- Skip JSON whitespace. -/
def skipWs (l : List Char) : List Char := l.dropWhile isJsonWs

/-- Numeric value of one decimal digit character. -/
def digitVal (c : Char) : Nat := c.toNat - 48

/-- Accumulate a digit run into a natural number. -/
def digitsToNat (ds : List Char) : Nat := ds.foldl (fun n c => n * 10 + digitVal c) 0

/-- Value of one hexadecimal digit character. -/
def hexVal (c : Char) : Nat :=
  if c.isDigit then c.toNat - 48
  else if 'a' ≤ c ∧ c ≤ 'f' then c.toNat - 87
  else c.toNat - 55

/-- Is the character a hexadecimal digit? -/
def isHexDigit (c : Char) : Bool :=
  c.isDigit || ('a' ≤ c && c ≤ 'f') || ('A' ≤ c && c ≤ 'F')

/-- Parse the body of a JSON string literal (after the opening quote). -/
def parseStringRest : Nat → List Char → List Char → Except String (String × List Char)
  | 0, _, _ => .error "Unexpected end of JSON input"
  | fuel + 1, cs, acc =>
    match cs with
    | [] => .error "Unterminated string in JSON"
    | '"' :: rest => .ok (⟨acc.reverse⟩, rest)
    | c :: rest =>
      if c = bslash then
        match rest with
        | [] => .error "Unterminated string in JSON"
        | e :: rest2 =>
          if e = '"' then parseStringRest fuel rest2 ('"' :: acc)
          else if e = bslash then parseStringRest fuel rest2 (bslash :: acc)
          else if e = '/' then parseStringRest fuel rest2 ('/' :: acc)
          else if e = 'b' then parseStringRest fuel rest2 ('\x08' :: acc)
          else if e = 'f' then parseStringRest fuel rest2 ('\x0c' :: acc)
          else if e = 'n' then parseStringRest fuel rest2 ('\n' :: acc)
          else if e = 'r' then parseStringRest fuel rest2 ('\r' :: acc)
          else if e = 't' then parseStringRest fuel rest2 ('\t' :: acc)
          else if e = 'u' then
            match rest2 with
            | h1 :: h2 :: h3 :: h4 :: rest3 =>
              if isHexDigit h1 && isHexDigit h2 && isHexDigit h3 && isHexDigit h4 then
                let code := ((hexVal h1 * 16 + hexVal h2) * 16 + hexVal h3) * 16 + hexVal h4
                parseStringRest fuel rest3 (Char.ofNat code :: acc)
              else .error "Bad Unicode escape in JSON"
            | _ => .error "Bad Unicode escape in JSON"
          else .error "Bad escaped character in JSON"
      else if c.toNat < 0x20 then .error "Bad control character in JSON string"
      else parseStringRest fuel rest (c :: acc)

/-- Parse a JSON number starting at `cs` (first char is `-` or a digit). -/
def parseNumber (cs : List Char) : Except String (JsonVal × List Char) :=
  let (neg, cs1) := match cs with
    | '-' :: rest => (true, rest)
    | _ => (false, cs)
  let intRes : Except String (List Char × List Char) :=
    match cs1 with
    | '0' :: rest => .ok (['0'], rest)
    | c :: rest =>
      if c.isDigit then .ok (c :: rest.takeWhile Char.isDigit, rest.dropWhile Char.isDigit)
      else .error "Unexpected token in JSON"
    | [] => .error "Unexpected end of JSON input"
  match intRes with
  | .error e => .error e
  | .ok (intDs, cs2) =>
    let fracRes : Except String (List Char × List Char) :=
      match cs2 with
      | '.' :: rest =>
        let ds := rest.takeWhile Char.isDigit
        if ds.isEmpty then .error "Unterminated fractional number in JSON"
        else .ok (ds, rest.dropWhile Char.isDigit)
      | _ => .ok ([], cs2)
    match fracRes with
    | .error e => .error e
    | .ok (fracDs, cs3) =>
      let expRes : Except String (Int × List Char) :=
        match cs3 with
        | c :: rest =>
          if c = 'e' ∨ c = 'E' then
            let (esign, rest2) : Int × List Char := match rest with
              | '+' :: r => (1, r)
              | '-' :: r => (-1, r)
              | _ => (1, rest)
            let ds := rest2.takeWhile Char.isDigit
            if ds.isEmpty then .error "Exponent part is missing a number in JSON"
            else .ok (esign * Int.ofNat (digitsToNat ds), rest2.dropWhile Char.isDigit)
          else .ok (0, cs3)
        | [] => .ok (0, cs3)
      match expRes with
      | .error e => .error e
      | .ok (ex, cs4) =>
        let mantissaNat := digitsToNat (intDs ++ fracDs)
        let mantissa : Int := if neg then -Int.ofNat mantissaNat else Int.ofNat mantissaNat
        .ok (.num mantissa (ex - Int.ofNat fracDs.length), cs4)

mutual

/-- Parse one JSON value (leading whitespace allowed). -/
def parseVal : Nat → List Char → Except String (JsonVal × List Char)
  | 0, _ => .error "Too much nesting in JSON"
  | fuel + 1, cs =>
    match skipWs cs with
    | 'n' :: 'u' :: 'l' :: 'l' :: rest => .ok (.null, rest)
    | 't' :: 'r' :: 'u' :: 'e' :: rest => .ok (.bool true, rest)
    | 'f' :: 'a' :: 'l' :: 's' :: 'e' :: rest => .ok (.bool false, rest)
    | '"' :: rest =>
      match parseStringRest (rest.length + 1) rest [] with
      | .error e => .error e
      | .ok (s, rest2) => .ok (.str s, rest2)
    | '{' :: rest => parseObjBody fuel rest true []
    | '[' :: rest => parseArrBody fuel rest true []
    | c :: rest =>
      if c = '-' ∨ c.isDigit then parseNumber (c :: rest)
      else .error "Unexpected token in JSON"
    | [] => .error "Unexpected end of JSON input"

/-- Parse the members of a JSON object after `{` (or after a comma). -/
def parseObjBody : Nat → List Char → Bool → List (String × JsonVal) →
    Except String (JsonVal × List Char)
  | 0, _, _, _ => .error "Too much nesting in JSON"
  | fuel + 1, cs, first, acc =>
    match skipWs cs with
    | '}' :: rest =>
      if first then .ok (.obj acc, rest)
      else .error "Trailing comma in JSON object"
    | '"' :: rest =>
      match parseStringRest (rest.length + 1) rest [] with
      | .error e => .error e
      | .ok (k, rest2) =>
        match skipWs rest2 with
        | ':' :: rest3 =>
          match parseVal fuel rest3 with
          | .error e => .error e
          | .ok (v, rest4) =>
            match skipWs rest4 with
            | ',' :: rest5 => parseObjBody fuel rest5 false (acc ++ [(k, v)])
            | '}' :: rest5 => .ok (.obj (acc ++ [(k, v)]), rest5)
            | _ => .error "Expected comma or brace after JSON object member"
        | _ => .error "Expected colon after JSON object key"
    | _ => .error "Expected string key in JSON object"

/-- Parse the elements of a JSON array after `[` (or after a comma). -/
def parseArrBody : Nat → List Char → Bool → List JsonVal →
    Except String (JsonVal × List Char)
  | 0, _, _, _ => .error "Too much nesting in JSON"
  | fuel + 1, cs, first, acc =>
    match skipWs cs with
    | ']' :: rest =>
      if first then .ok (.arr acc, rest)
      else .error "Trailing comma in JSON array"
    | _ =>
      match parseVal fuel cs with
      | .error e => .error e
      | .ok (v, rest) =>
        match skipWs rest with
        | ',' :: rest2 => parseArrBody fuel rest2 false (acc ++ [v])
        | ']' :: rest2 => .ok (.arr (acc ++ [v]), rest2)
        | _ => .error "Expected comma or bracket after JSON array element"

end

/-- `JSON.parse`: parse one value and require only whitespace after it. -/
def jsonParse (s : String) : Except String JsonVal :=
  match parseVal (s.data.length + 1) s.data with
  | .error e => .error e
  | .ok (v, rest) =>
    if (skipWs rest).isEmpty then .ok v
    else .error "Unexpected non-whitespace character after JSON"

/-- `true` exactly on `.error`. -/
def isErr {α : Type} (e : Except String α) : Bool :=
  match e with
  | .error _ => true
  | .ok _ => false

/-- `mapM` for `Except`, written as the source's push loop: convert each
element in order, aborting on the first error. -/
def mapMexc {α β : Type} (f : α → Except String β) : List α → Except String (List β)
  | [] => .ok []
  | a :: as =>
    match f a with
    | .error e => .error e
    | .ok b =>
      match mapMexc f as with
      | .error e => .error e
      | .ok bs => .ok (b :: bs)

/-! ## Inbound request model

The proxy receives loosely-typed JSON request objects and reads them through
three structural views (`BaseRequest`, `AnthropicStyleRequest`,
`OpenAIStyleRequest`).  We model one record per JSON shape with optional
fields, mirroring the duck typing: every view reads the same underlying
object. -/

mutual

/-- A content block of a message (`type` is the discriminant; all payload
fields are optional, as on a raw JSON object). -/
inductive Block where
  | mk (type : String) (text : Option String) (id : Option String)
       (name : Option String) (input : Option JsonVal)
       (tool_use_id : Option String) (content : Option BlockContent)
       (thinking : Option String) (signature : Option String)

/-- A `tool_result` block's `content`: a string or a nested block list. -/
inductive BlockContent where
  | str (s : String)
  | blocks (bs : List Block)

end

/-- The discriminant of a block. -/
def Block.type : Block → String
  | .mk t _ _ _ _ _ _ _ _ => t

/-- The `text` field of a block. -/
def Block.text : Block → Option String
  | .mk _ x _ _ _ _ _ _ _ => x

/-- The `id` field of a block. -/
def Block.id : Block → Option String
  | .mk _ _ x _ _ _ _ _ _ => x

/-- The `name` field of a block. -/
def Block.name : Block → Option String
  | .mk _ _ _ x _ _ _ _ _ => x

/-- The `input` field of a block. -/
def Block.input : Block → Option JsonVal
  | .mk _ _ _ _ x _ _ _ _ => x

/-- The `tool_use_id` field of a block. -/
def Block.tool_use_id : Block → Option String
  | .mk _ _ _ _ _ x _ _ _ => x

/-- The `content` field of a block. -/
def Block.content : Block → Option BlockContent
  | .mk _ _ _ _ _ _ x _ _ => x

/-- The `thinking` field of a block. -/
def Block.thinking : Block → Option String
  | .mk _ _ _ _ _ _ _ x _ => x

/-- The `signature` field of a block. -/
def Block.signature : Block → Option String
  | .mk _ _ _ _ _ _ _ _ x => x

/-- Message `content`: a bare string or an ordered block list (`none`
models JSON `null` or an absent field). -/
inductive MsgContent where
  | str (s : String)
  | blocks (bs : List Block)

/-- The nested `function` object of an OpenAI-style tool call. -/
structure ToolCallFunction where
  name : String
  arguments : Option String
  deriving Repr

/-- An OpenAI-style tool call. -/
structure ToolCall where
  id : String
  function : ToolCallFunction
  deriving Repr

/-- An inbound chat message. -/
structure Message where
  role : String
  content : Option MsgContent := none
  tool_calls : Option (List ToolCall) := none
  tool_call_id : Option String := none

/-- The nested `function` object of an OpenAI-style tool definition. -/
structure ToolFn where
  name : String
  description : Option String := none
  parameters : Option JsonVal := none

/-- A tool definition (optional fields cover both dialects' shapes). -/
structure Tool where
  name : Option String := none
  description : Option String := none
  input_schema : Option JsonVal := none
  type : Option String := none
  function : Option ToolFn := none

/-- A system-block entry of an Anthropic-style `system` array. -/
structure SysBlock where
  type : String
  text : Option String := none

/-- The `system` field: a string, an array of typed blocks, or any other
JSON value (`other` keeps presence observable for format detection). -/
inductive SystemVal where
  | str (s : String)
  | arr (xs : List SysBlock)
  | other

/-- An inbound request body. -/
structure Request where
  model : String
  messages : List Message
  system : Option SystemVal := none
  tools : Option (List Tool) := none
  max_tokens : Option Int := none
  stream : Option Bool := none
  temperature : Option Int := none

/-! ## Internal representation -/

/-- Internal message roles. -/
inductive Role where
  | user
  | assistant
  deriving DecidableEq, Repr

/-- Internal content blocks. -/
inductive InternalContentBlock where
  | text (text : String)
  | thinking (thinking : String) (signature : Option String)
  | redactedThinking (data : String)
  | toolUse (id : Option String) (name : Option String) (input : Option JsonVal)
  | toolResult (tool_use_id : Option String) (content : String)

/-- An internal message. -/
structure InternalMessage where
  role : Role
  content : List InternalContentBlock

/-- An internal tool definition. -/
structure InternalTool where
  name : Option String
  description : String
  parameters : JsonVal

/-- The single internal request representation. -/
structure InternalRequest where
  messages : List InternalMessage
  tools : Option (List InternalTool)
  model : String
  maxTokens : Int
  system : Option String
  stream : Bool
  temperature : Option Int
  maxThinkingTokens : Option Int

/-! ## Shared helpers of the normalizers -/

/-- `x || default` for an optional numeric field (zero is falsy). -/
def jsOrNum (o : Option Int) (d : Int) : Int :=
  match o with
  | some n => if n = 0 then d else n
  | none => d

/-- `x || default` for an optional string field (the empty string is falsy). -/
def jsOrStr (o : Option String) (d : String) : String :=
  match o with
  | some s => if s = "" then d else s
  | none => d

/-- Conditional-spread of a string (`...(s && { field: s })`): keep only a
truthy value. -/
def jsStrOpt (o : Option String) : Option String :=
  match o with
  | some s => if s = "" then none else some s
  | none => none

/-- Join a list of strings with newlines (`Array.prototype.join("\n")`). -/
def joinNL (xs : List String) : String := String.intercalate "\n" xs

/-- `extractTextContent`: a bare string passes through; a block list
concatenates the `text` payloads of blocks whose discriminant is `text` and
whose payload is a string, newline-joined; `null`/absent yields `""`. -/
def extractTextContent (content : Option MsgContent) : String :=
  match content with
  | none => ""
  | some (.str s) => s
  | some (.blocks bs) =>
    joinNL ((bs.filter fun b => b.type == "text" && b.text.isSome).map
      fun b => b.text.getD "")

/-- Result of model-name resolution. -/
structure MappedModel where
  model : String
  enableThinking : Bool
  deriving Repr

/-- Boolean prefix test on character lists. -/
def isPfx (p l : List Char) : Bool := (dropPfx? p l).isSome

/-- Boolean substring (infix) test on character lists. -/
def isInfx : List Char → List Char → Bool
  | p, [] => isPfx p []
  | p, l :: rest => isPfx p (l :: rest) || isInfx p rest

/-- `"thinking"` occurs (case-insensitively) in the model identifier:
`model.toLowerCase().includes("thinking")` (ASCII lowering, which covers the
model identifiers concerned). -/
def containsThinking (model : String) : Bool :=
  isInfx "thinking".data (model.data.map Char.toLower)

/-- `mapModelName`: resolve through the static table; unmapped identifiers
pass through with reasoning inferred from the substring `"thinking"`. -/
def mapModelName (model : String) : MappedModel :=
  if model = "claude-4.5-opus-high-thinking" then ⟨"claude-opus-4-5-20251101", true⟩
  else if model = "claude-4.5-opus" then ⟨"claude-opus-4-5-20251101", false⟩
  else if model = "claude-4-opus" then ⟨"claude-opus-4-20250514", false⟩
  else if model = "claude-4-sonnet" then ⟨"claude-sonnet-4-20250514", false⟩
  else if model = "claude-3.5-sonnet" then ⟨"claude-sonnet-4-20250514", false⟩
  else if model = "claude-3-opus" then ⟨"claude-3-opus-20240229", false⟩
  else if model = "claude-3-sonnet" then ⟨"claude-3-sonnet-20240229", false⟩
  else if model = "claude-3-haiku" then ⟨"claude-3-haiku-20240307", false⟩
  else ⟨model, containsThinking model⟩

/-- The keys of `mapModelName`'s static table. -/
def modelMapKeys : List String :=
  ["claude-4.5-opus-high-thinking", "claude-4.5-opus", "claude-4-opus",
   "claude-4-sonnet", "claude-3.5-sonnet", "claude-3-opus", "claude-3-sonnet",
   "claude-3-haiku"]

/-- Merge one system-role message's text into the running system prompt
(`if (systemPrompt) systemPrompt += "\n\n" + t; else systemPrompt = t`). -/
def mergeSystem (sys : Option String) (t : String) : Option String :=
  match sys with
  | some s => if s = "" then some t else some (s ++ "\n\n" ++ t)
  | none => some t

/-! ## Format detection -/

/-- `isAnthropicFormat`: an explicit `system` field, a first tool carrying
`input_schema`, or any `tool_use`/`tool_result` block in array message
content classifies the request as Anthropic-format. -/
def isAnthropicFormat (r : Request) : Bool :=
  if r.system.isSome then true
  else if (match r.tools with
           | some (t :: _) => t.input_schema.isSome
           | _ => false) then true
  else r.messages.any fun m =>
    match m.content with
    | some (.blocks bs) => bs.any fun b => b.type == "tool_use" || b.type == "tool_result"
    | _ => false

/-! ## `parseThinkingFromText`: the global envelope scan -/

/-- Parse a trailer followed by the closing fence at the current position;
return `((sig, crc), rest-after-fence)` on success. -/
def splitTrailerFence? (l : List Char) : Option ((List Char × List Char) × List Char) :=
  match dropPfx? sigHeadChars l with
  | none => none
  | some r1 =>
    match takeSig r1 with
    | [] => none
    | sig =>
      match dropPfx? crcSepChars (r1.drop sig.length) with
      | none => none
      | some r2 =>
        match takeCrc r2 with
        | [] => none
        | crc =>
          match r2.drop crc.length with
          | ']' :: r3 =>
            match dropPfx? fenceChars r3 with
            | some after => some ((sig, crc), after)
            | none => none
          | _ => none

/-- After a header occurrence, find the lazy content group's end: the first
position closing the match, preferring (as the regex does) a trailer followed
by the fence over a bare fence.  Returns `(content, trailer?, rest)`. -/
def scanClose : List Char → Option (List Char × Option (List Char × List Char) × List Char)
  | [] => none
  | c :: rest =>
    match splitTrailerFence? (c :: rest) with
    | some (tc, after) => some ([], some tc, after)
    | none =>
      match dropPfx? fenceChars (c :: rest) with
      | some after => some ([], none, after)
      | none =>
        match scanClose rest with
        | some (content, tr, after) => some (c :: content, tr, after)
        | none => none

/-- Find the leftmost complete envelope match: the text before it, the
content group, the optional trailer, and the rest of the input. -/
def findEnv : List Char → Option (List Char × List Char × Option (List Char × List Char) × List Char)
  | [] => none
  | c :: rest =>
    match dropPfx? headerChars (c :: rest) with
    | some afterHeader =>
      match scanClose afterHeader with
      | some (content, tr, after) => some ([], content, tr, after)
      | none =>
        match findEnv rest with
        | some (before, content, tr, after) => some (c :: before, content, tr, after)
        | none => none
    | none =>
      match findEnv rest with
      | some (before, content, tr, after) => some (c :: before, content, tr, after)
      | none => none

theorem dropPfx?_length {p l r : List Char} (h : dropPfx? p l = some r) :
    r.length + p.length = l.length := by
  induction p generalizing l with
  | nil => simp [dropPfx?] at h; simp [h]
  | cons x xs ih =>
    cases l with
    | nil => simp [dropPfx?] at h
    | cons c cs =>
      simp only [dropPfx?] at h
      split at h
      · have := ih h; simp [List.length_cons]; omega
      · exact absurd h (by simp)

theorem splitTrailerFence?_length {l : List Char} {tc : List Char × List Char}
    {after : List Char} (h : splitTrailerFence? l = some (tc, after)) :
    after.length < l.length := by
  unfold splitTrailerFence? at h
  split at h
  · exact absurd h (by simp)
  · rename_i r1 h1
    split at h
    · exact absurd h (by simp)
    · split at h
      · exact absurd h (by simp)
      · rename_i r2 h2
        split at h
        · exact absurd h (by simp)
        · split at h
          · rename_i r3 hdrop
            split at h
            · rename_i after' h4
              cases h
              have l1 := dropPfx?_length h1
              have l2 := dropPfx?_length h2
              have l4 := dropPfx?_length h4
              have hr3 : r3.length < r2.length := by
                have hc := congrArg List.length hdrop
                simp only [List.length_drop, List.length_cons] at hc
                omega
              have hr2 : (r1.drop (takeSig r1).length).length ≤ r1.length := by
                simp only [List.length_drop]
                omega
              have c1 : sigHeadChars.length = 6 := by decide
              have c2 : crcSepChars.length = 5 := by decide
              have c3 : fenceChars.length = 4 := by decide
              omega
            · exact absurd h (by simp)
          · exact absurd h (by simp)

theorem scanClose_length {l content : List Char} {tr : Option (List Char × List Char)}
    {after : List Char} (h : scanClose l = some (content, tr, after)) :
    after.length ≤ l.length := by
  induction l generalizing content tr after with
  | nil => simp [scanClose] at h
  | cons c rest ih =>
    simp only [scanClose] at h
    split at h
    · rename_i tc after' hst
      cases h
      have := splitTrailerFence?_length hst
      omega
    · split at h
      · rename_i after' hf
        cases h
        have := dropPfx?_length hf
        have c3 : fenceChars.length = 4 := by decide
        simp only [List.length_cons] at *
        omega
      · split at h
        · rename_i content' tr' after' hrec
          cases h
          have := ih hrec
          simp only [List.length_cons]
          omega
        · exact absurd h (by simp)

theorem findEnv_length {l before content : List Char} {tr : Option (List Char × List Char)}
    {after : List Char} (h : findEnv l = some (before, content, tr, after)) :
    after.length < l.length := by
  induction l generalizing before content tr after with
  | nil => simp [findEnv] at h
  | cons c rest ih =>
    simp only [findEnv] at h
    split at h
    · rename_i afterHeader hh
      split at h
      · rename_i content' tr' after' hsc
        cases h
        have h1 := dropPfx?_length hh
        have h2 := scanClose_length hsc
        have c0 : headerChars.length = 23 := by decide
        simp only [List.length_cons] at *
        omega
      · split at h
        · rename_i b c' t a hrec
          cases h
          have := ih hrec
          simp only [List.length_cons]
          omega
        · exact absurd h (by simp)
    · split at h
      · rename_i b c' t a hrec
        cases h
        have := ih hrec
        simp only [List.length_cons]
        omega
      · exact absurd h (by simp)

/-- Rebuild the exact matched substring (`match[0]`) from its parts. -/
def reconstructEnv (content : List Char) (tr : Option (List Char × List Char)) : String :=
  ⟨headerChars ++ content ++
    (match tr with
     | some (sig, crc) => sigHeadChars ++ sig ++ crcSepChars ++ crc ++ [']']
     | none => []) ++ fenceChars⟩

/-- The scanning loop of `parseThinkingFromText`: non-empty trimmed text
between matches becomes `text` blocks; each match is decoded via
`decodeThinkingBlock`, becoming a `thinking` block on success and being
silently dropped on failure. -/
def parseLoopPT (cs : List Char) : List InternalContentBlock :=
  match h : findEnv cs with
  | none =>
    if (jsTrim cs).isEmpty then [] else [.text ⟨jsTrim cs⟩]
  | some (before, content, tr, after) =>
    (if (jsTrim before).isEmpty then [] else [.text ⟨jsTrim before⟩]) ++
    (match decodeThinkingBlock (reconstructEnv content tr) with
     | some (th, sg) => [.thinking th (some sg)]
     | none => []) ++
    parseLoopPT after
termination_by cs.length
decreasing_by exact findEnv_length h

/-- `parseThinkingFromText`, including the final fallback: if no block was
produced but the trimmed input is non-empty, the whole trimmed input becomes
one `text` block. -/
def parseThinkingFromText (text : String) : List InternalContentBlock :=
  let blocks := parseLoopPT text.data
  if blocks.isEmpty && !(jsTrim text.data).isEmpty then [.text ⟨jsTrim text.data⟩]
  else blocks

/-! ## Thinking-Consistency Filter -/

/-- Is the block a `thinking` or `redacted_thinking` block? -/
def isThinkingBlk : InternalContentBlock → Bool
  | .thinking _ _ => true
  | .redactedThinking _ => true
  | _ => false

/-- Does the message contain a `thinking`/`redacted_thinking` block
anywhere in its content? -/
def msgHasThinking (m : InternalMessage) : Bool := m.content.any isThinkingBlk

/-- Is the message an assistant turn the first pass removes (no thinking
block anywhere)? -/
def removeAssistantB (m : InternalMessage) : Bool :=
  decide (m.role = .assistant) && !(msgHasThinking m)

/-- The `tool_use` ids carried by a message's content. -/
def collectToolUseIds (m : InternalMessage) : List (Option String) :=
  m.content.filterMap fun b =>
    match b with
    | .toolUse id _ _ => some id
    | _ => none

/-- Concatenate the `tool_use` ids carried by a list of messages (the
`forEach`/`Set.add` accumulation of the filter's first pass). -/
def collectFold (L : List InternalMessage) : List (Option String) :=
  L.foldr (fun m acc => collectToolUseIds m ++ acc) []

/-- The second pass's per-block predicate: drop `tool_result` blocks whose
referenced id was collected from a removed assistant turn. -/
def keepBlock (removedToolIds : List (Option String)) (b : InternalContentBlock) : Bool :=
  match b with
  | .toolResult tid _ => if tid ∈ removedToolIds then false else true
  | _ => true

/-- The second pass's per-message step: filter a user turn's `tool_result`
blocks, dropping the turn if that empties it; other turns pass through. -/
def secondPass (removedToolIds : List (Option String)) (m : InternalMessage) :
    Option InternalMessage :=
  if m.role = .user then
    if (m.content.filter (keepBlock removedToolIds)).length == 0 then none
    else some { m with content := m.content.filter (keepBlock removedToolIds) }
  else some m

/-- `filterMessagesWithoutThinking`: when reasoning is enabled, remove
assistant turns without a thinking block (collecting their `tool_use` ids),
then drop `tool_result` blocks referencing a removed id from user turns,
dropping a user turn entirely when that empties it. -/
def filterMessagesWithoutThinking (messages : List InternalMessage)
    (enableThinking : Bool) : List InternalMessage :=
  if !enableThinking then messages
  else
    if (collectFold (messages.filter removeAssistantB)).length > 0 then
      (messages.filter fun m => !(removeAssistantB m)).filterMap
        (secondPass (collectFold (messages.filter removeAssistantB)))
    else messages.filter fun m => !(removeAssistantB m)

/-! ## Transform: Anthropic → Internal -/

/-- The initial system prompt from the request's `system` field
(only a truthy string or an array contributes). -/
def anthropicSystemPrompt (r : Request) : Option String :=
  match r.system with
  | some (.str s) => if s = "" then none else some s
  | some (.arr xs) =>
    some (joinNL ((xs.filter fun b => b.type == "text" && b.text.isSome).map
      fun b => b.text.getD ""))
  | some .other => none
  | none => none

/-- Flatten a `tool_result` block's content to text. -/
def toolResultText (c : Option BlockContent) : String :=
  match c with
  | some (.str s) => s
  | some (.blocks cs) =>
    joinNL ((cs.filter fun b => b.type == "text").map fun b => b.text.getD "")
  | none => ""

/-- Convert a user turn's block array (Anthropic path): `text` and
`tool_result` blocks pass through; other block kinds are skipped. -/
def anthropicUserContent (bs : List Block) : List InternalContentBlock :=
  bs.foldr (fun b acc =>
    (if b.type = "text" then [InternalContentBlock.text (b.text.getD "")]
     else if b.type = "tool_result" then
       [InternalContentBlock.toolResult b.tool_use_id (toolResultText b.content)]
     else []) ++ acc) []

/-- `...(block.signature && { signature })`: keep only a truthy signature. -/
def truthySig (o : Option String) : Option String :=
  match o with
  | some s => if s = "" then none else some s
  | none => none

/-- Convert an assistant turn's block array (Anthropic path): `text` blocks
are run through `parseThinkingFromText`, native `thinking` blocks are
preserved (with a truthy signature), `tool_use` blocks pass through. -/
def anthropicAssistantContent (bs : List Block) : List InternalContentBlock :=
  bs.foldr (fun b acc =>
    (if b.type = "text" then parseThinkingFromText (b.text.getD "")
     else if b.type = "thinking" then
       [InternalContentBlock.thinking (b.thinking.getD "") (truthySig b.signature)]
     else if b.type = "tool_use" then
       [InternalContentBlock.toolUse b.id b.name b.input]
     else []) ++ acc) []

/-- The message loop of `anthropicToInternal`: system turns merge into the
system prompt; user/assistant turns convert block-wise and are pushed only
when their converted content is non-empty. -/
def anthropicLoop : List Message → List InternalMessage → Option String →
    List InternalMessage × Option String
  | [], acc, sys => (acc, sys)
  | msg :: rest, acc, sys =>
    if msg.role = "system" then
      anthropicLoop rest acc (mergeSystem sys (extractTextContent msg.content))
    else if msg.role = "user" then
      let content :=
        match msg.content with
        | some (.blocks bs) => anthropicUserContent bs
        | other =>
          let t := extractTextContent other
          if t = "" then [] else [InternalContentBlock.text t]
      anthropicLoop rest (if content.isEmpty then acc else acc ++ [⟨.user, content⟩]) sys
    else if msg.role = "assistant" then
      let content :=
        match msg.content with
        | some (.blocks bs) => anthropicAssistantContent bs
        | other =>
          let t := extractTextContent other
          if t = "" then [] else parseThinkingFromText t
      anthropicLoop rest (if content.isEmpty then acc else acc ++ [⟨.assistant, content⟩]) sys
    else anthropicLoop rest acc sys

/-- The default empty-object parameter schema. -/
def defaultSchema : JsonVal :=
  .obj [("type", .str "object"), ("properties", .obj [])]

/-- Map an Anthropic-style tool definition. -/
def mapAnthropicTool (t : Tool) : InternalTool :=
  ⟨t.name, t.description.getD "",
   match t.input_schema with
   | some v => if jsonTruthy v then v else defaultSchema
   | none => defaultSchema⟩

/-- `anthropicToInternal`. -/
def anthropicToInternal (r : Request) : InternalRequest :=
  let (msgs, sys) := anthropicLoop r.messages [] (anthropicSystemPrompt r)
  let tools := r.tools.map (List.map mapAnthropicTool)
  let mm := mapModelName r.model
  { messages := filterMessagesWithoutThinking msgs mm.enableThinking
    tools := tools
    model := mm.model
    maxTokens := jsOrNum r.max_tokens 4096
    system := jsStrOpt sys
    stream := r.stream.getD false
    temperature := r.temperature
    maxThinkingTokens := if mm.enableThinking then some 10000 else none }

/-! ## Transform: OpenAI → Internal -/

/-- Convert one tool call of an assistant turn: parse the arguments string
(`arguments || "{}"`) as JSON; a parse failure is a thrown error. -/
def convToolCall (tc : ToolCall) : Except String InternalContentBlock :=
  match jsonParse (jsOrStr tc.function.arguments "{}") with
  | .error e => .error e
  | .ok input => .ok (.toolUse (some tc.id) (some tc.function.name) (some input))

/-- Convert an assistant turn's tool-call list, if present. -/
def assistantToolBlocks (o : Option (List ToolCall)) :
    Except String (List InternalContentBlock) :=
  match o with
  | some tcs => mapMexc convToolCall tcs
  | none => .ok []

/-- The message loop of `openaiToInternal` (fallible: tool-call argument
parsing can throw). -/
def openaiLoop : List Message → List InternalMessage → Option String →
    Except String (List InternalMessage × Option String)
  | [], acc, sys => .ok (acc, sys)
  | msg :: rest, acc, sys =>
    if msg.role = "system" then
      openaiLoop rest acc (mergeSystem sys (extractTextContent msg.content))
    else if msg.role = "user" then
      let t := extractTextContent msg.content
      let content := if t = "" then [] else [InternalContentBlock.text t]
      openaiLoop rest (if content.isEmpty then acc else acc ++ [⟨.user, content⟩]) sys
    else if msg.role = "assistant" then
      match assistantToolBlocks msg.tool_calls with
      | .error e => .error e
      | .ok tuBlocks =>
        let textBlocks :=
          match msg.content with
          | none => []
          | other =>
            let t := extractTextContent other
            if t = "" then [] else parseThinkingFromText t
        let content := tuBlocks ++ textBlocks
        openaiLoop rest (if content.isEmpty then acc else acc ++ [⟨.assistant, content⟩]) sys
    else if msg.role = "tool" then
      match msg.tool_call_id with
      | some tcid =>
        if tcid = "" then openaiLoop rest acc sys
        else
          openaiLoop rest
            (acc ++ [⟨.user, [.toolResult (some tcid) (extractTextContent msg.content)]⟩]) sys
      | none => openaiLoop rest acc sys
    else openaiLoop rest acc sys

/-- Map an OpenAI-style tool definition (reading `tool.function.name` of an
absent `function` object is a thrown `TypeError`). -/
def mapOpenAITool (t : Tool) : Except String InternalTool :=
  match t.function with
  | none => .error "TypeError: Cannot read properties of undefined"
  | some f =>
    .ok ⟨some f.name, f.description.getD "",
      match f.parameters with
      | some v => if jsonTruthy v then v else defaultSchema
      | none => defaultSchema⟩

/-- `openaiToInternal`. -/
def openaiToInternal (r : Request) : Except String InternalRequest :=
  match openaiLoop r.messages [] none with
  | .error e => .error e
  | .ok (msgs, sys) =>
    match ((match r.tools with
            | some ts =>
              match mapMexc mapOpenAITool ts with
              | .error e => .error e
              | .ok its => .ok (some its)
            | none => .ok none) :
           Except String (Option (List InternalTool))) with
    | .error e => .error e
    | .ok tools =>
      let mm := mapModelName r.model
      .ok { messages := filterMessagesWithoutThinking msgs mm.enableThinking
            tools := tools
            model := mm.model
            maxTokens := jsOrNum r.max_tokens 4096
            system := jsStrOpt sys
            stream := r.stream.getD false
            temperature := r.temperature
            maxThinkingTokens := if mm.enableThinking then some 10000 else none }

/-- `toInternal`: auto-detect the dialect and dispatch. -/
def toInternal (r : Request) : Except String InternalRequest :=
  if isAnthropicFormat r then .ok (anthropicToInternal r)
  else openaiToInternal r

/-! ## Lemmas: prefix/suffix machinery -/

theorem dropPfx?_eq_some {p l r : List Char} (h : dropPfx? p l = some r) :
    l = p ++ r := by
  induction p generalizing l with
  | nil => simp [dropPfx?] at h; simp [h]
  | cons x xs ih =>
    cases l with
    | nil => simp [dropPfx?] at h
    | cons c cs =>
      simp only [dropPfx?] at h
      split at h
      · rename_i hx
        subst hx
        simp [ih h]
      · exact absurd h (by simp)

theorem dropPfx?_append (p l : List Char) : dropPfx? p (p ++ l) = some l := by
  induction p with
  | nil => simp [dropPfx?]
  | cons x xs ih => simp [dropPfx?, ih]

theorem dropSfx?_eq_some {s l m : List Char} (h : dropSfx? s l = some m) :
    l = m ++ s := by
  unfold dropSfx? at h
  cases hd : dropPfx? s.reverse l.reverse with
  | none => rw [hd] at h; simp at h
  | some r =>
    rw [hd] at h
    simp only [Option.map] at h
    cases h
    have := dropPfx?_eq_some hd
    have : l.reverse.reverse = (s.reverse ++ r).reverse := by rw [← this]
    simpa using this

theorem dropSfx?_append (s l : List Char) : dropSfx? s (l ++ s) = some l := by
  unfold dropSfx?
  rw [List.reverse_append, dropPfx?_append]
  simp

/-! ## Lemmas: the encoder's output is not decodable as-is (trailing newlines) -/

theorem decode_of_ends_newline (s : String) (h : s.data.getLast? = some '\n') :
    decodeThinkingBlock s = none := by
  unfold decodeThinkingBlock
  cases hdp : dropPfx? headerChars s.data with
  | none => rfl
  | some rest =>
    have hsplit := dropPfx?_eq_some hdp
    show (match dropSfx? fenceChars rest with
          | none => none
          | some middle => decodeMiddle middle) = none
    cases hsfx : dropSfx? fenceChars rest with
    | none => rfl
    | some m =>
      exfalso
      have hr : rest = m ++ fenceChars := dropSfx?_eq_some hsfx
      have hfence : fenceChars = (['\n'] ++ [backtick, backtick]) ++ [backtick] := by decide
      have hlast : s.data.getLast? = some backtick := by
        rw [hsplit, hr, hfence]
        rw [List.getLast?_append, List.getLast?_append, List.getLast?_append]
        simp
      rw [h] at hlast
      have : '\n' = backtick := by injection hlast
      exact absurd this (by decide)

/-- The encoder's exact output always ends with a blank line, so the anchored
decode regex can never match it (for any signature argument). -/
theorem decode_encode_eq_none (t : String) (sig : Option String) :
    decodeThinkingBlock (encodeThinkingBlock t sig) = none := by
  apply decode_of_ends_newline
  show (encodeThinkingBlock t sig).data.getLast? = some '\n'
  unfold encodeThinkingBlock
  rw [String.data_append]
  rw [List.getLast?_append]
  have : ("\n```\n\n".data).getLast? = some '\n' := by decide
  rw [this]
  rfl

/-! ## Lemmas: backtick escaping -/

theorem escList_cons (c : Char) (cs : List Char) :
    escList (c :: cs) =
      if c = backtick then bslash :: backtick :: escList cs else c :: escList cs := rfl

theorem escList_head?_ne_backtick (l : List Char) : (escList l).head? ≠ some backtick := by
  cases l with
  | nil => simp [escList]
  | cons c cs =>
    rw [escList_cons]
    split
    · simp [bslash, backtick]
    · rename_i hc
      simp only [List.head?_cons, ne_eq, Option.some.injEq]
      exact hc

theorem escList_eq_nil_iff {l : List Char} : escList l = [] ↔ l = [] := by
  cases l with
  | nil => simp [escList]
  | cons c cs =>
    rw [escList_cons]
    constructor
    · intro h
      split at h <;> simp at h
    · intro h
      simp at h

theorem unescList_cons2 (c d : Char) (cs : List Char) :
    unescList (c :: d :: cs) =
      if c = bslash ∧ d = backtick then backtick :: unescList cs
      else c :: unescList (d :: cs) := rfl

theorem unescList_escList (l : List Char) : unescList (escList l) = l := by
  induction l with
  | nil => rfl
  | cons c cs ih =>
    by_cases hc : c = backtick
    · subst hc
      rw [escList_cons, if_pos rfl]
      cases hcs : escList cs with
      | nil =>
        have hnil : cs = [] := escList_eq_nil_iff.mp hcs
        subst hnil
        rw [unescList_cons2, if_pos ⟨rfl, rfl⟩]
        rfl
      | cons d ds =>
        rw [unescList_cons2, if_pos ⟨rfl, rfl⟩, ← hcs, ih]
    · rw [escList_cons, if_neg hc]
      cases hcs : escList cs with
      | nil =>
        have hnil : cs = [] := escList_eq_nil_iff.mp hcs
        subst hnil
        rfl
      | cons d ds =>
        have hd : ¬(c = bslash ∧ d = backtick) := by
          rintro ⟨h1, h2⟩
          exact escList_head?_ne_backtick cs (by rw [hcs, h2]; rfl)
        rw [unescList_cons2, if_neg hd, ← hcs, ih]

theorem escList_append (a b : List Char) :
    escList (a ++ b) = escList a ++ escList b := by
  induction a with
  | nil => rfl
  | cons c cs ih =>
    show escList (c :: (cs ++ b)) = escList (c :: cs) ++ escList b
    rw [escList_cons, escList_cons]
    by_cases hc : c = backtick
    · rw [if_pos hc, if_pos hc, ih]
      rfl
    · rw [if_neg hc, if_neg hc, ih]
      rfl

theorem escList_ne_nil {l : List Char} (h : l ≠ []) : escList l ≠ [] := by
  intro hx
  exact h (escList_eq_nil_iff.mp hx)

/-- Each character of `escList l` is a character of `l` or the inserted
backslash. -/
theorem escList_mem {l : List Char} {c : Char} (h : c ∈ escList l) :
    c ∈ l ∨ c = bslash := by
  induction l with
  | nil => simp [escList] at h
  | cons x xs ih =>
    rw [escList_cons] at h
    split at h
    · rename_i hx
      simp only [List.mem_cons] at h
      rcases h with h | h | h
      · exact Or.inr h
      · exact Or.inl (by simp [h, hx])
      · rcases ih h with h' | h'
        · exact Or.inl (List.mem_cons_of_mem _ h')
        · exact Or.inr h'
    · simp only [List.mem_cons] at h
      rcases h with h | h
      · exact Or.inl (by simp [h])
      · rcases ih h with h' | h'
        · exact Or.inl (List.mem_cons_of_mem _ h')
        · exact Or.inr h'

/-- A pattern free of backslashes and backticks that is a prefix of
`escList l` is a prefix of `l`. -/
theorem pfx_of_pfx_escList {P l : List Char}
    (hP : ∀ c ∈ P, c ≠ bslash ∧ c ≠ backtick) (h : P <+: escList l) : P <+: l := by
  induction l generalizing P with
  | nil =>
    simp only [escList, List.prefix_nil] at h
    simp [h]
  | cons c cs ih =>
    cases P with
    | nil => simp
    | cons p ps =>
      simp only [escList] at h
      split at h
      · rename_i hc
        exfalso
        rcases List.cons_prefix_cons.mp h with ⟨hpb, _⟩
        exact (hP p (by simp)).1 hpb
      · rcases List.cons_prefix_cons.mp h with ⟨hpc, hps⟩
        exact List.cons_prefix_cons.mpr
          ⟨hpc, ih (fun x hx => hP x (List.mem_cons_of_mem _ hx)) hps⟩

/-- A pattern free of backslashes and backticks that occurs inside
`escList l` occurs inside `l`. -/
theorem infix_of_infix_escList {P l : List Char}
    (hP : ∀ c ∈ P, c ≠ bslash ∧ c ≠ backtick) (hne : P ≠ [])
    (h : P <:+: escList l) : P <:+: l := by
  induction l with
  | nil =>
    exfalso
    rw [show escList [] = [] from rfl] at h
    rw [List.infix_nil] at h
    exact hne h
  | cons c cs ih =>
    have hesc : escList (c :: cs) =
        (if c = backtick then bslash :: backtick :: escList cs else c :: escList cs) := rfl
    rw [hesc] at h
    split at h
    · rename_i hc
      rcases List.infix_cons_iff.mp h with hpfx | htail
      · exfalso
        cases P with
        | nil => exact hne rfl
        | cons p ps =>
          rcases List.cons_prefix_cons.mp hpfx with ⟨hpb, _⟩
          exact (hP p (by simp)).1 hpb
      · rcases List.infix_cons_iff.mp htail with hpfx | htail2
        · exfalso
          cases P with
          | nil => exact hne rfl
          | cons p ps =>
            rcases List.cons_prefix_cons.mp hpfx with ⟨hpb, _⟩
            exact (hP p (by simp)).2 hpb
        · exact List.infix_cons_iff.mpr (Or.inr (ih htail2))
    · rcases List.infix_cons_iff.mp h with hpfx | htail
      · have : P <+: escList (c :: cs) := by rw [hesc]; simpa [if_neg (by assumption)]
        exact (pfx_of_pfx_escList hP this).isInfix
      · exact List.infix_cons_iff.mpr (Or.inr (ih htail))

/-! ## Lemmas: JavaScript trim -/

theorem dropWhile_eq_self_of_head {l : List Char}
    (h : ∀ c, l.head? = some c → isJsWs c = false) : l.dropWhile isJsWs = l := by
  cases l with
  | nil => rfl
  | cons c cs => simp [List.dropWhile_cons, h c rfl]

theorem jsTrim_eq_self {l : List Char}
    (hh : ∀ c, l.head? = some c → isJsWs c = false)
    (hl : ∀ c, l.getLast? = some c → isJsWs c = false) : jsTrim l = l := by
  unfold jsTrim
  rw [dropWhile_eq_self_of_head hh]
  rw [dropWhile_eq_self_of_head (fun c hc => hl c (by rwa [List.head?_reverse] at hc))]
  exact List.reverse_reverse l

theorem dropWhile_length_le (p : Char → Bool) (l : List Char) :
    (l.dropWhile p).length ≤ l.length := by
  induction l with
  | nil => simp
  | cons c cs ih =>
    rw [List.dropWhile_cons]
    split
    · exact Nat.le_succ_of_le ih
    · simp

theorem jsTrim_length_le (l : List Char) : (jsTrim l).length ≤ l.length := by
  unfold jsTrim
  calc ((l.dropWhile isJsWs).reverse.dropWhile isJsWs).reverse.length
      = ((l.dropWhile isJsWs).reverse.dropWhile isJsWs).length := List.length_reverse _
    _ ≤ (l.dropWhile isJsWs).reverse.length := dropWhile_length_le _ _
    _ = (l.dropWhile isJsWs).length := List.length_reverse _
    _ ≤ l.length := dropWhile_length_le _ _

theorem jsTrim_head {l : List Char} (h : jsTrim l = l) {c : Char}
    (hc : l.head? = some c) : isJsWs c = false := by
  by_contra hws
  simp only [Bool.not_eq_false] at hws
  cases l with
  | nil => simp at hc
  | cons x xs =>
    simp only [List.head?_cons, Option.some.injEq] at hc
    subst hc
    have h1 : (x :: xs).dropWhile isJsWs = xs.dropWhile isJsWs := by
      simp [List.dropWhile_cons, hws]
    have h2 : (jsTrim (x :: xs)).length ≤ xs.length := by
      unfold jsTrim
      rw [h1]
      calc ((xs.dropWhile isJsWs).reverse.dropWhile isJsWs).reverse.length
          = ((xs.dropWhile isJsWs).reverse.dropWhile isJsWs).length := List.length_reverse _
        _ ≤ (xs.dropWhile isJsWs).reverse.length := dropWhile_length_le _ _
        _ = (xs.dropWhile isJsWs).length := List.length_reverse _
        _ ≤ xs.length := dropWhile_length_le _ _
    rw [h] at h2
    simp at h2

theorem jsTrim_last {l : List Char} (h : jsTrim l = l) {c : Char}
    (hc : l.getLast? = some c) : isJsWs c = false := by
  by_contra hws
  simp only [Bool.not_eq_false] at hws
  have hlne : l ≠ [] := by intro hx; rw [hx] at hc; simp at hc
  by_cases hAe : l.dropWhile isJsWs = []
  · have hnil : jsTrim l = [] := by unfold jsTrim; rw [hAe]; rfl
    rw [hnil] at h
    exact hlne h.symm
  · have hsfx : l.dropWhile isJsWs <:+ l :=
      ⟨l.takeWhile isJsWs, List.takeWhile_append_dropWhile isJsWs l⟩
    obtain ⟨w, hw⟩ := hsfx
    have hlastA : (l.dropWhile isJsWs).getLast? = some c := by
      rw [← hw, List.getLast?_append] at hc
      cases hA : (l.dropWhile isJsWs).getLast? with
      | none =>
        exfalso
        apply hAe
        cases hAl : l.dropWhile isJsWs with
        | nil => rfl
        | cons y ys =>
          rw [hAl] at hA
          simp [List.getLast?_eq_getLast] at hA
      | some d =>
        rw [hA] at hc
        simpa using hc
    have hrev : (l.dropWhile isJsWs).reverse.head? = some c := by
      rw [List.head?_reverse]; exact hlastA
    cases hr : (l.dropWhile isJsWs).reverse with
    | nil => rw [hr] at hrev; simp at hrev
    | cons x xs =>
      rw [hr] at hrev
      simp only [List.head?_cons, Option.some.injEq] at hrev
      subst hrev
      have hlen1 : (jsTrim l).length ≤ xs.length := by
        unfold jsTrim
        rw [List.length_reverse, hr]
        calc ((x :: xs).dropWhile isJsWs).length
            = (xs.dropWhile isJsWs).length := by
              simp [List.dropWhile_cons, hws]
          _ ≤ xs.length := dropWhile_length_le _ _
      have hlen2 : l.length = w.length + (l.dropWhile isJsWs).length := by
        have hwl := congrArg List.length hw
        simp only [List.length_append] at hwl
        omega
      have hlen3 : (l.dropWhile isJsWs).length = xs.length + 1 := by
        have hlr := congrArg List.length hr
        simp only [List.length_reverse, List.length_cons] at hlr
        exact hlr
      rw [h] at hlen1
      omega

/-- Trimming a list that ends in two newlines after a backtick, and starts
with a non-whitespace character, removes exactly the two newlines. -/
theorem jsTrim_append_nn {A : List Char}
    (hh : ∀ c, A.head? = some c → isJsWs c = false)
    (hl : A.getLast? = some backtick) : jsTrim (A ++ ['\n', '\n']) = A := by
  have hA : A ≠ [] := by intro h; rw [h] at hl; simp at hl
  unfold jsTrim
  have h1 : (A ++ ['\n', '\n']).dropWhile isJsWs = A ++ ['\n', '\n'] := by
    apply dropWhile_eq_self_of_head
    intro c hc
    apply hh
    cases hAl : A with
    | nil => exact absurd hAl hA
    | cons a as =>
      rw [hAl] at hc
      simpa using hc
  rw [h1, List.reverse_append]
  have h2 : (['\n', '\n'] : List Char).reverse = ['\n', '\n'] := rfl
  rw [h2]
  have h3 : (['\n', '\n'] ++ A.reverse).dropWhile isJsWs = A.reverse := by
    have hnl : isJsWs '\n' = true := by decide
    show (('\n' :: '\n' :: A.reverse)).dropWhile isJsWs = A.reverse
    rw [List.dropWhile_cons, if_pos hnl, List.dropWhile_cons, if_pos hnl]
    apply dropWhile_eq_self_of_head
    intro c hc
    rw [List.head?_reverse, hl] at hc
    cases hc
    decide
  rw [h3, List.reverse_reverse]

/-! ## Lemmas: takeWhile on a clean run -/

theorem takeWhile_append_stop {p : Char → Bool} {A B : List Char} {b : Char}
    (hA : ∀ c ∈ A, p c = true) (hb : p b = false) :
    (A ++ b :: B).takeWhile p = A := by
  induction A with
  | nil => simp [List.takeWhile_cons, hb]
  | cons a as ih =>
    rw [List.cons_append, List.takeWhile_cons, if_pos (hA a (by simp))]
    rw [ih (fun c hc => hA c (List.mem_cons_of_mem _ hc))]

/-! ## Lemmas: the CRC hex rendering uses only hex digits -/

theorem hexDigit_ne_rbracket {m : Nat} (h : m < 16) : (hexDigit m == ']') = false := by
  interval_cases m <;> decide

theorem natToHexAux_mem {f : Nat} :
    ∀ {n : Nat} {acc : List Char} {c : Char}, c ∈ natToHexAux f n acc →
      c ∈ acc ∨ ∃ m, m < 16 ∧ c = hexDigit m := by
  induction f with
  | zero => intro n acc c h; exact Or.inl h
  | succ f ih =>
    intro n acc c h
    rw [show natToHexAux (f + 1) n acc =
        (if n = 0 then acc else natToHexAux f (n / 16) (hexDigit (n % 16) :: acc)) from rfl] at h
    split at h
    · exact Or.inl h
    · rcases ih h with h' | h'
      · rcases List.mem_cons.mp h' with h'' | h''
        · exact Or.inr ⟨n % 16, Nat.mod_lt _ (by omega), h''⟩
        · exact Or.inl h''
      · exact Or.inr h'

theorem calcCrc_mem {s : String} {c : Char} (h : c ∈ (calculateCrc32 s).data) :
    ∃ m, m < 16 ∧ c = hexDigit m := by
  have hdata : (calculateCrc32 s).data =
      padLeft8 (natToHex (crc32Bytes (utf8Bytes s.data))) := rfl
  rw [hdata] at h
  unfold padLeft8 at h
  rcases List.mem_append.mp h with h' | h'
  · have : c = '0' := List.eq_of_mem_replicate h'
    exact ⟨0, by omega, by rw [this]; decide⟩
  · unfold natToHex at h'
    split at h'
    · have : c = '0' := by simpa using h'
      exact ⟨0, by omega, by rw [this]; decide⟩
    · rcases natToHexAux_mem h' with h'' | h''
      · simp at h''
      · exact h''

theorem calcCrc_ne_rbracket {s : String} {c : Char} (h : c ∈ (calculateCrc32 s).data) :
    (c == ']') = false := by
  obtain ⟨m, hm, hc⟩ := calcCrc_mem h
  rw [hc]
  exact hexDigit_ne_rbracket hm

theorem natToHexAux_suffix {f : Nat} :
    ∀ {n : Nat} {acc : List Char}, ∃ pre, natToHexAux f n acc = pre ++ acc := by
  induction f with
  | zero => intro n acc; exact ⟨[], rfl⟩
  | succ f ih =>
    intro n acc
    rw [show natToHexAux (f + 1) n acc =
        (if n = 0 then acc else natToHexAux f (n / 16) (hexDigit (n % 16) :: acc)) from rfl]
    split
    · exact ⟨[], rfl⟩
    · obtain ⟨pre, hpre⟩ := @ih (n / 16) (hexDigit (n % 16) :: acc)
      exact ⟨pre ++ [hexDigit (n % 16)], by rw [hpre]; simp⟩

theorem natToHex_ne_nil (n : Nat) : natToHex n ≠ [] := by
  unfold natToHex
  split
  · simp
  · rename_i hn
    rw [show natToHexAux 8 n [] =
        (if n = 0 then [] else natToHexAux 7 (n / 16) (hexDigit (n % 16) :: [])) from rfl]
    rw [if_neg hn]
    obtain ⟨pre, hpre⟩ := @natToHexAux_suffix 7 (n / 16) [hexDigit (n % 16)]
    rw [hpre]
    simp

theorem calcCrc_ne_nil (s : String) : (calculateCrc32 s).data ≠ [] := by
  show padLeft8 (natToHex (crc32Bytes (utf8Bytes s.data))) ≠ []
  unfold padLeft8
  intro h
  rcases List.append_eq_nil.mp h with ⟨_, h2⟩
  exact natToHex_ne_nil _ h2

/-! ## Lemmas: parsing the trailer the encoder wrote -/

theorem trailerCrcPart_build (sig : List Char) (d0 : Char) (crc' : List Char)
    (hcc : ∀ c ∈ d0 :: crc', (c == ']') = false) :
    trailerCrcPart sig ((d0 :: crc') ++ [']']) = some (sig, d0 :: crc') := by
  unfold trailerCrcPart
  have h1 : takeCrc ((d0 :: crc') ++ [']']) = d0 :: crc' := by
    unfold takeCrc
    exact takeWhile_append_stop (fun c hc => by simp [hcc c hc]) (by decide)
  rw [h1]
  show (match ((d0 :: crc') ++ [']']).drop (d0 :: crc').length with
        | [']'] => some (sig, d0 :: crc')
        | _ => none) = some (sig, d0 :: crc')
  rw [List.drop_left]
  rfl

theorem trailerSigPart_build (c0 : Char) (s' : List Char) (d0 : Char) (crc' : List Char)
    (hsc : ∀ c ∈ c0 :: s', (c == ',' || c == ']') = false)
    (hcc : ∀ c ∈ d0 :: crc', (c == ']') = false) :
    trailerSigPart ((c0 :: s') ++ (crcSepChars ++ ((d0 :: crc') ++ [']']))) =
      some (c0 :: s', d0 :: crc') := by
  unfold trailerSigPart
  have hsep : crcSepChars ++ ((d0 :: crc') ++ [']']) =
      ',' :: ('C' :: 'R' :: 'C' :: '=' :: ((d0 :: crc') ++ [']'])) := rfl
  have h1 : takeSig ((c0 :: s') ++ (crcSepChars ++ ((d0 :: crc') ++ [']']))) = c0 :: s' := by
    unfold takeSig
    rw [hsep]
    exact takeWhile_append_stop (fun c hc => by simp [hsc c hc]) (by decide)
  rw [h1]
  show (match dropPfx? crcSepChars
          (((c0 :: s') ++ (crcSepChars ++ ((d0 :: crc') ++ [']']))).drop (c0 :: s').length) with
        | none => none
        | some r2 => trailerCrcPart (c0 :: s') r2) = some (c0 :: s', d0 :: crc')
  rw [List.drop_left, dropPfx?_append]
  show trailerCrcPart (c0 :: s') ((d0 :: crc') ++ [']']) = some (c0 :: s', d0 :: crc')
  exact trailerCrcPart_build _ _ _ hcc

theorem trailerSuffix?_build (c0 : Char) (s' : List Char) (d0 : Char) (crc' : List Char)
    (hsc : ∀ c ∈ c0 :: s', (c == ',' || c == ']') = false)
    (hcc : ∀ c ∈ d0 :: crc', (c == ']') = false) :
    trailerSuffix? (sigHeadChars ++ ((c0 :: s') ++ (crcSepChars ++ ((d0 :: crc') ++ [']'])))) =
      some (c0 :: s', d0 :: crc') := by
  unfold trailerSuffix?
  rw [dropPfx?_append]
  exact trailerSigPart_build c0 s' d0 crc' hsc hcc

theorem trailerSuffix?_head {T : List Char} {tc : List Char × List Char}
    (h : trailerSuffix? T = some tc) : ∃ r, T = sigHeadChars ++ r := by
  unfold trailerSuffix? at h
  cases hdp : dropPfx? sigHeadChars T with
  | none => rw [hdp] at h; simp at h
  | some r => exact ⟨r, dropPfx?_eq_some hdp⟩

/-! ## Lemmas: the trailer head cannot start inside the escaped content -/

theorem sigHead_prefix_cases {F T : List Char}
    (h : sigHeadChars <+: F ++ '\n' :: T) : F = [] ∨ sigHeadChars <+: F := by
  have hsig : sigHeadChars = '\n' :: '[' :: 'S' :: 'I' :: 'G' :: '=' :: [] := by decide
  rcases F with _ | ⟨a, _ | ⟨b, _ | ⟨c, _ | ⟨d, _ | ⟨e, _ | ⟨f, rest⟩⟩⟩⟩⟩⟩
  · exact Or.inl rfl
  · rw [hsig] at h
    simp only [List.cons_append, List.nil_append, List.cons_prefix_cons] at h
    exact absurd h.2.1.symm (by decide)
  · rw [hsig] at h
    simp only [List.cons_append, List.nil_append, List.cons_prefix_cons] at h
    exact absurd h.2.2.1.symm (by decide)
  · rw [hsig] at h
    simp only [List.cons_append, List.nil_append, List.cons_prefix_cons] at h
    exact absurd h.2.2.2.1.symm (by decide)
  · rw [hsig] at h
    simp only [List.cons_append, List.nil_append, List.cons_prefix_cons] at h
    exact absurd h.2.2.2.2.1.symm (by decide)
  · rw [hsig] at h
    simp only [List.cons_append, List.nil_append, List.cons_prefix_cons] at h
    exact absurd h.2.2.2.2.2.1.symm (by decide)
  · rw [hsig] at h ⊢
    simp only [List.cons_append, List.cons_prefix_cons] at h
    obtain ⟨h1, h2, h3, h4, h5, h6, _⟩ := h
    right
    subst h1; subst h2; subst h3; subst h4; subst h5; subst h6
    simp [List.cons_prefix_cons]

/-- The scan over `escaped ++ trailer` finds exactly the encoder's trailer:
the content group is the escaped text, provided the trailer-head literal does
not occur in it. -/
theorem scanContentTrailer_append {E T : List Char} {tc : List Char × List Char}
    (hT : trailerSuffix? T = some tc) (hE : ¬ sigHeadChars <:+: E) :
    scanContentTrailer (E ++ T) = (E, some tc) := by
  obtain ⟨r, hr⟩ := trailerSuffix?_head hT
  have hTcons : ∃ T', T = '\n' :: T' := by
    refine ⟨"[SIG=".data ++ r, ?_⟩
    rw [hr]
    rfl
  obtain ⟨T', hT'⟩ := hTcons
  induction E with
  | nil =>
    rw [List.nil_append, hT']
    show (match trailerSuffix? ('\n' :: T') with
          | some tc => (([] : List Char), some tc)
          | none =>
            match scanContentTrailer T' with
            | (content, tr) => ('\n' :: content, tr)) = ([], some tc)
    rw [← hT', hT]
  | cons e E' ih =>
    have hE' : ¬ sigHeadChars <:+: E' := by
      intro hx
      exact hE (List.infix_cons_iff.mpr (Or.inr hx))
    have hnone : trailerSuffix? ((e :: E') ++ T) = none := by
      unfold trailerSuffix?
      cases hdp : dropPfx? sigHeadChars ((e :: E') ++ T) with
      | none => rfl
      | some r0 =>
        exfalso
        have hpre : sigHeadChars <+: (e :: E') ++ T :=
          ⟨r0, (dropPfx?_eq_some hdp).symm⟩
        rw [hT'] at hpre
        rcases sigHead_prefix_cases hpre with h0 | hpF
        · simp at h0
        · exact hE hpF.isInfix
    rw [List.cons_append]
    show (match trailerSuffix? (e :: (E' ++ T)) with
          | some tc => (([] : List Char), some tc)
          | none =>
            match scanContentTrailer (E' ++ T) with
            | (content, tr) => (e :: content, tr)) = (e :: E', some tc)
    rw [show e :: (E' ++ T) = (e :: E') ++ T from rfl, hnone, ih hE']

/-! ## Lemmas: trim-invariance of the escaped content -/

theorem escList_head?_eq (c : Char) (cs : List Char) :
    (escList (c :: cs)).head? = some (if c = backtick then bslash else c) := by
  rw [escList_cons]
  split <;> rfl

theorem jsTrim_escList {l : List Char} (h : jsTrim l = l) :
    jsTrim (escList l) = escList l := by
  cases hl : l with
  | nil => rfl
  | cons c cs =>
    rw [← hl]
    apply jsTrim_eq_self
    · intro x hx
      rw [hl, escList_head?_eq] at hx
      have hcw : isJsWs c = false := jsTrim_head h (by rw [hl]; rfl)
      split at hx
      · cases hx; decide
      · cases hx; exact hcw
    · intro x hx
      rcases List.eq_nil_or_concat l with hnil | ⟨L, z, hLz⟩
      · rw [hnil] at hl; cases hl
      · rw [List.concat_eq_append] at hLz
        have hzw : isJsWs z = false :=
          jsTrim_last h (by rw [hLz]; exact List.getLast?_concat L)
        rw [hLz, escList_append] at hx
        have hez : escList [z] = if z = backtick then [bslash, backtick] else [z] := by
          rw [show escList [z] =
              (if z = backtick then bslash :: backtick :: escList [] else z :: escList []) from
              escList_cons z []]
          split <;> rfl
        rw [hez] at hx
        split at hx
        · rw [List.getLast?_append] at hx
          rw [show ([bslash, backtick] : List Char).getLast? = some backtick from rfl] at hx
          simp only [Option.or_some, Option.some.injEq] at hx
          cases hx
          decide
        · rw [List.getLast?_append] at hx
          rw [show ([z] : List Char).getLast? = some z from rfl] at hx
          simp only [Option.or_some, Option.some.injEq] at hx
          cases hx
          exact hzw

/-! ## C2 amended: the codec round-trip on the trimmed encoder output -/

/-- The round-trip of the thinking codec, stated on the trimmed encoder
output (the encoder appends a blank line that the anchored decode regex
rejects): for non-empty, trimmed reasoning text that does not contain the
trailer-head literal `"\n[SIG="`, and a non-empty signature without `,` or
`]`, decoding the trimmed encoding returns the original pair. -/
theorem decode_jsTrim_encode (t s : String)
    (ht : t ≠ "") (htr : jsTrim t.data = t.data)
    (hsig : ¬ sigHeadChars <:+: t.data)
    (hs : s ≠ "")
    (hsc : ∀ c ∈ s.data, (c == ',' || c == ']') = false) :
    decodeThinkingBlock (jsTrimStr (encodeThinkingBlock t (some s))) = some (t, s) := by
  have htd : t.data ≠ [] := by
    intro hx
    apply ht
    cases t with
    | mk d => cases hx; rfl
  have hsd : s.data ≠ [] := by
    intro hx
    apply hs
    cases s with
    | mk d => cases hx; rfl
  -- name the pieces
  obtain ⟨c0, s', hs0⟩ : ∃ c0 s', s.data = c0 :: s' := by
    cases hx : s.data with
    | nil => exact absurd hx hsd
    | cons a as => exact ⟨a, as, rfl⟩
  have hEne : escList t.data ≠ [] := escList_ne_nil htd
  obtain ⟨d0, crc', hc0⟩ : ∃ d0 crc',
      (calculateCrc32 ⟨escList t.data⟩).data = d0 :: crc' := by
    cases hx : (calculateCrc32 ⟨escList t.data⟩).data with
    | nil => exact absurd hx (calcCrc_ne_nil _)
    | cons a as => exact ⟨a, as, rfl⟩
  -- the encoder's trailer region
  have hsc' : ∀ c ∈ c0 :: s', (c == ',' || c == ']') = false := by
    rw [← hs0]; exact hsc
  have hcc' : ∀ c ∈ d0 :: crc', (c == ']') = false := by
    rw [← hc0]
    intro c hc
    exact calcCrc_ne_rbracket hc
  have hT : trailerSuffix?
      (sigHeadChars ++ ((c0 :: s') ++ (crcSepChars ++ ((d0 :: crc') ++ [']'])))) =
      some (c0 :: s', d0 :: crc') :=
    trailerSuffix?_build c0 s' d0 crc' hsc' hcc'
  -- the trailer head literal cannot occur in the escaped content
  have hEnosig : ¬ sigHeadChars <:+: escList t.data := by
    intro hx
    exact hsig (infix_of_infix_escList
      (by decide) (by decide) hx)
  have hscan : scanContentTrailer (escList t.data ++
      (sigHeadChars ++ ((c0 :: s') ++ (crcSepChars ++ ((d0 :: crc') ++ [']']))))) =
      (escList t.data, some (c0 :: s', d0 :: crc')) :=
    scanContentTrailer_append hT hEnosig
  -- decompose the encoder's output
  have hstep : encodeThinkingBlock t (some s) =
      "```thinking\n[Thinking]\n" ++ (⟨escList t.data⟩ : String) ++
        ("\n[SIG=" ++ s ++ ",CRC=" ++ calculateCrc32 ⟨escList t.data⟩ ++ "]") ++
        "\n```\n\n" := by
    simp only [encodeThinkingBlock]
    rw [if_neg hs]
  have e5 : "\n```\n\n".data = fenceChars ++ ['\n', '\n'] := by decide
  have hdata : (encodeThinkingBlock t (some s)).data =
      (headerChars ++ ((escList t.data ++
        (sigHeadChars ++ ((c0 :: s') ++ (crcSepChars ++ ((d0 :: crc') ++ [']']))))) ++
        fenceChars)) ++ ['\n', '\n'] := by
    rw [hstep]
    simp only [String.data_append, e5]
    rw [hs0, hc0]
    simp [headerChars, sigHeadChars, crcSepChars, fenceChars, List.append_assoc]
  -- trimming removes exactly the trailing blank line
  have hhd : ∀ c, ((headerChars ++ ((escList t.data ++
      (sigHeadChars ++ ((c0 :: s') ++ (crcSepChars ++ ((d0 :: crc') ++ [']']))))) ++
      fenceChars))).head? = some c → isJsWs c = false := by
    intro c hc
    rw [show headerChars = backtick :: "``thinking\n[Thinking]\n".data from by decide] at hc
    rw [List.cons_append, List.head?_cons] at hc
    cases hc
    decide
  have hlast : ((headerChars ++ ((escList t.data ++
      (sigHeadChars ++ ((c0 :: s') ++ (crcSepChars ++ ((d0 :: crc') ++ [']']))))) ++
      fenceChars))).getLast? = some backtick := by
    rw [List.getLast?_append, List.getLast?_append]
    rw [show fenceChars.getLast? = some backtick from by decide]
    rfl
  have htrim : jsTrimStr (encodeThinkingBlock t (some s)) =
      ⟨headerChars ++ ((escList t.data ++
        (sigHeadChars ++ ((c0 :: s') ++ (crcSepChars ++ ((d0 :: crc') ++ [']']))))) ++
        fenceChars)⟩ := by
    unfold jsTrimStr
    congr 1
    rw [hdata]
    exact jsTrim_append_nn hhd hlast
  rw [htrim]
  -- run the decode
  unfold decodeThinkingBlock
  rw [show ((⟨headerChars ++ ((escList t.data ++
      (sigHeadChars ++ ((c0 :: s') ++ (crcSepChars ++ ((d0 :: crc') ++ [']']))))) ++
      fenceChars)⟩ : String)).data =
      headerChars ++ ((escList t.data ++
      (sigHeadChars ++ ((c0 :: s') ++ (crcSepChars ++ ((d0 :: crc') ++ [']']))))) ++
      fenceChars) from rfl]
  rw [dropPfx?_append]
  show (match dropSfx? fenceChars ((escList t.data ++
      (sigHeadChars ++ ((c0 :: s') ++ (crcSepChars ++ ((d0 :: crc') ++ [']']))))) ++
      fenceChars) with
      | none => none
      | some middle => decodeMiddle middle) = some (t, s)
  rw [dropSfx?_append]
  show decodeMiddle (escList t.data ++
      (sigHeadChars ++ ((c0 :: s') ++ (crcSepChars ++ ((d0 :: crc') ++ [']']))))) = some (t, s)
  unfold decodeMiddle
  rw [hscan]
  show (if (jsTrim (escList t.data)).isEmpty then none
        else if calculateCrc32 ⟨jsTrim (escList t.data)⟩ = ((⟨d0 :: crc'⟩ : String)) then
          some ((⟨unescList (jsTrim (escList t.data))⟩ : String), (⟨c0 :: s'⟩ : String))
        else none) = some (t, s)
  rw [jsTrim_escList htr]
  rw [if_neg (by
    intro hx
    exact hEne (List.isEmpty_iff.mp hx))]
  rw [if_pos (by rw [← hc0])]
  rw [unescList_escList, ← hs0]

/-! # Claims -/

/-! ## C2: codec round-trip -/

/-- C2 (counterexample): the round-trip fails on the encoder's exact output:
`decodeThinkingBlock (encodeThinkingBlock "a" "sig")` is `none`, not
`some ("a", "sig")` — the encoder appends a blank line after the closing
fence, which the anchored decode regex rejects. -/
theorem c2_counterexample :
    decodeThinkingBlock (encodeThinkingBlock "a" (some "sig")) = none ∧
    decodeThinkingBlock (encodeThinkingBlock "a" (some "sig")) ≠ some ("a", "sig") := by
  refine ⟨decode_encode_eq_none "a" (some "sig"), ?_⟩
  rw [decode_encode_eq_none "a" (some "sig")]
  simp

/-- C2 (amended): the codec round-trips on the trimmed encoder output: for
every non-empty reasoning text `t` that equals its own trim and does not
contain the trailer-head literal `"\n[SIG="`, and every non-empty signature
`s` containing neither `,` nor `]`,
`decodeThinkingBlock ((encodeThinkingBlock t s).trim()) = {t, s}`. -/
theorem c2_roundtrip_trimmed (t s : String)
    (ht : t ≠ "") (htr : jsTrim t.data = t.data)
    (hsig : ¬ sigHeadChars <:+: t.data)
    (hs : s ≠ "")
    (hsc : ∀ c ∈ s.data, (c == ',' || c == ']') = false) :
    decodeThinkingBlock (jsTrimStr (encodeThinkingBlock t (some s))) = some (t, s) :=
  decode_jsTrim_encode t s ht htr hsig hs hsc

/-- C2 (witness): the amended round-trip at `t = "hello"`, `s = "sig"`. -/
theorem c2_witness :
    decodeThinkingBlock (jsTrimStr (encodeThinkingBlock "hello" (some "sig"))) =
      some ("hello", "sig") :=
  c2_roundtrip_trimmed "hello" "sig" (by decide) (by decide) (by decide) (by decide)
    (by decide)

/-! ## C3: encoding without a signature is not decodable -/

/-- C3: for every reasoning text `t`, decoding the no-signature encoding
returns `none`: `decodeThinkingBlock (encodeThinkingBlock t) = none` (the
signature/CRC trailer is absent, and in fact the encoder's trailing blank
line alone already fails the anchored match). -/
theorem c3_encode_no_sig_not_decodable (t : String) :
    decodeThinkingBlock (encodeThinkingBlock t none) = none :=
  decode_encode_eq_none t none

/-! ## C1: the filter's first-block invariant -/

/-- Does the message's FIRST content block carry reasoning? -/
def startsWithThinking (m : InternalMessage) : Bool :=
  match m.content.head? with
  | some b => isThinkingBlk b
  | none => false

/-- The C1 counterexample request: an Anthropic-format request on a
reasoning-enabled model whose assistant turn is `[tool_use, thinking]`. -/
def c1req : Request :=
  { model := "claude-x-thinking"
    messages :=
      [{ role := "assistant"
         content := some (.blocks
           [Block.mk "tool_use" none (some "t1") (some "search") (some (.obj []))
              none none none none,
            Block.mk "thinking" none none none none none none (some "why") (some "s")]) }] }

/-- C1 (counterexample): with reasoning enabled, the normalized output
retains an assistant turn whose FIRST content element is `tool_use`, not
`thinking` — the filter only requires a thinking block SOMEWHERE in the
turn. -/
theorem c1_counterexample :
    isAnthropicFormat c1req = true ∧
    (anthropicToInternal c1req).maxThinkingTokens = some 10000 ∧
    (anthropicToInternal c1req).messages =
      [⟨.assistant,
        [.toolUse (some "t1") (some "search") (some (.obj [])),
         .thinking "why" (some "s")]⟩] ∧
    startsWithThinking
      ⟨.assistant,
       [.toolUse (some "t1") (some "search") (some (.obj [])),
        .thinking "why" (some "s")]⟩ = false :=
  ⟨rfl, rfl, rfl, rfl⟩

/-- A kept message is kept because it is not a removable assistant turn. -/
theorem keep_assistant_hasThinking {m : InternalMessage}
    (h : removeAssistantB m = false) (hr : m.role = .assistant) :
    msgHasThinking m = true := by
  unfold removeAssistantB at h
  rw [hr] at h
  simpa using h

/-- C1 (amended): after the Thinking-Consistency Filter runs with reasoning
enabled, every assistant turn remaining in the output has a `thinking` or
`redacted_thinking` block SOMEWHERE in its content (not necessarily first):
the filter retains exactly the assistant turns containing such a block. -/
theorem c1_filter_assistant_has_thinking (msgs : List InternalMessage)
    (m : InternalMessage) (hm : m ∈ filterMessagesWithoutThinking msgs true)
    (hr : m.role = .assistant) : msgHasThinking m = true := by
  unfold filterMessagesWithoutThinking at hm
  rw [if_neg (by decide)] at hm
  split at hm
  · rw [List.mem_filterMap] at hm
    obtain ⟨m0, hm0, hf⟩ := hm
    rw [List.mem_filter] at hm0
    obtain ⟨hm0mem, hm0keep⟩ := hm0
    unfold secondPass at hf
    split at hf
    · rename_i hu
      split at hf
      · exact absurd hf (by simp)
      · rw [Option.some.injEq] at hf
        subst hf
        rw [hu] at hr
        exact absurd hr (by simp)
    · rw [Option.some.injEq] at hf
      subst hf
      exact keep_assistant_hasThinking (by simpa using hm0keep) hr
  · rw [List.mem_filter] at hm
    exact keep_assistant_hasThinking (by simpa using hm.2) hr

/-- C1 (witness): the amended statement at a concrete retained turn. -/
theorem c1_witness :
    (⟨.assistant, [.thinking "t" none]⟩ : InternalMessage) ∈
      filterMessagesWithoutThinking [⟨.assistant, [.thinking "t" none]⟩] true ∧
    msgHasThinking ⟨.assistant, [.thinking "t" none]⟩ = true := by
  have hmem : (⟨.assistant, [.thinking "t" none]⟩ : InternalMessage) ∈
      filterMessagesWithoutThinking [⟨.assistant, [.thinking "t" none]⟩] true := by
    show (⟨.assistant, [.thinking "t" none]⟩ : InternalMessage) ∈
      [(⟨.assistant, [.thinking "t" none]⟩ : InternalMessage)]
    exact List.mem_singleton.mpr rfl
  exact ⟨hmem, c1_filter_assistant_has_thinking _ _ hmem rfl⟩

/-! ## C4: no dangling tool_result after the filter -/

/-- The `tool_use` ids appearing in the assistant turns of a message list. -/
def assistantToolUseIds (msgs : List InternalMessage) : List (Option String) :=
  collectFold (msgs.filter fun m => decide (m.role = .assistant))

/-- Does the block, if it is a `tool_result`, reference one of `ids`? -/
def toolResultOk (ids : List (Option String)) : InternalContentBlock → Bool
  | .toolResult tid _ => decide (tid ∈ ids)
  | _ => true

/-- Every `tool_result` block in the list references a `tool_use` id
appearing in some assistant turn of the same list. -/
def toolResultsReferenced (msgs : List InternalMessage) : Bool :=
  msgs.all fun m => m.content.all (toolResultOk (assistantToolUseIds msgs))

/-- Is the block a `tool_result`? -/
def isToolResult : InternalContentBlock → Bool
  | .toolResult _ _ => true
  | _ => false

theorem mem_collectFold {L : List InternalMessage} {x : Option String} :
    x ∈ collectFold L ↔ ∃ m ∈ L, x ∈ collectToolUseIds m := by
  induction L with
  | nil => simp [collectFold]
  | cons m ms ih =>
    rw [show collectFold (m :: ms) = collectToolUseIds m ++ collectFold ms from rfl]
    rw [List.mem_append, ih]
    constructor
    · rintro (h | ⟨m', hm', hx⟩)
      · exact ⟨m, by simp, h⟩
      · exact ⟨m', by simp [hm'], hx⟩
    · rintro ⟨m', hm', hx⟩
      rcases List.mem_cons.mp hm' with h | h
      · subst h; exact Or.inl hx
      · exact Or.inr ⟨m', h, hx⟩

/-- An id on a kept assistant turn stays among the kept assistant ids. -/
theorem kept_assistant_id {msgs : List InternalMessage} {tid : Option String}
    (hin : tid ∈ assistantToolUseIds msgs)
    (hR : tid ∉ collectFold (msgs.filter removeAssistantB)) :
    tid ∈ assistantToolUseIds (msgs.filter fun m => !(removeAssistantB m)) := by
  obtain ⟨ma, hma, hid⟩ := mem_collectFold.mp hin
  rw [List.mem_filter] at hma
  obtain ⟨hmamem, hmarole⟩ := hma
  have hkeep : removeAssistantB ma = false := by
    by_contra hx
    simp only [Bool.not_eq_false] at hx
    exact hR (mem_collectFold.mpr ⟨ma, List.mem_filter.mpr ⟨hmamem, hx⟩, hid⟩)
  exact mem_collectFold.mpr
    ⟨ma, List.mem_filter.mpr ⟨List.mem_filter.mpr ⟨hmamem, by simp [hkeep]⟩, hmarole⟩, hid⟩

/-- The second pass maps assistant turns through unchanged. -/
theorem secondPass_assistant {R : List (Option String)} {m : InternalMessage}
    (hr : m.role = .assistant) : secondPass R m = some m := by
  unfold secondPass
  rw [if_neg (by rw [hr]; simp)]

/-- An assistant id of the second pass's input survives into its output. -/
theorem secondPass_assistant_id {K : List InternalMessage} {R : List (Option String)}
    {tid : Option String} (hin : tid ∈ assistantToolUseIds K) :
    tid ∈ assistantToolUseIds (K.filterMap (secondPass R)) := by
  obtain ⟨ma, hma, hid⟩ := mem_collectFold.mp hin
  rw [List.mem_filter] at hma
  obtain ⟨hmamem, hmarole⟩ := hma
  have hrole : ma.role = .assistant := of_decide_eq_true hmarole
  refine mem_collectFold.mpr ⟨ma, List.mem_filter.mpr ⟨?_, hmarole⟩, hid⟩
  rw [List.mem_filterMap]
  exact ⟨ma, hmamem, secondPass_assistant hrole⟩

/-- Where an output message of the second pass comes from. -/
theorem secondPass_source {K : List InternalMessage} {R : List (Option String)}
    {m' : InternalMessage} (h : m' ∈ K.filterMap (secondPass R)) :
    ∃ m0 ∈ K, m'.role = m0.role ∧ (∀ b ∈ m'.content, b ∈ m0.content) ∧
      (m0.role = .user → ∀ b ∈ m'.content, keepBlock R b = true) := by
  rw [List.mem_filterMap] at h
  obtain ⟨m0, hm0, hf⟩ := h
  unfold secondPass at hf
  split at hf
  · rename_i hu
    split at hf
    · exact absurd hf (by simp)
    · rw [Option.some.injEq] at hf
      subst hf
      refine ⟨m0, hm0, rfl, ?_, ?_⟩
      · intro b hb
        exact (List.mem_filter.mp hb).1
      · intro _ b hb
        exact (List.mem_filter.mp hb).2
  · rw [Option.some.injEq] at hf
    subst hf
    rename_i hnu
    exact ⟨m0, hm0, rfl, fun b hb => hb, fun hx => absurd hx hnu⟩

/-- The C4 counterexample input: one user turn whose `tool_result` references
an id that never occurs. -/
def c4req : List InternalMessage := [⟨.user, [.toolResult (some "ghost") ""]⟩]

/-- C4 (counterexample): the filter passes a pre-existing dangling
`tool_result` through unchanged: on `c4req` (with reasoning enabled) the
output equals the input, and its `tool_result` references an id absent from
the output's assistant turns. -/
theorem c4_counterexample :
    filterMessagesWithoutThinking c4req true = c4req ∧
    toolResultsReferenced (filterMessagesWithoutThinking c4req true) = false :=
  ⟨rfl, rfl⟩

/-- C4 (amended): the filter introduces no new dangling `tool_result`: if
every `tool_result` of the input sits in a user turn and references a
`tool_use` id of some assistant turn of the input, then every `tool_result`
of the output references a `tool_use` id of some assistant turn of the
output. -/
theorem c4_no_new_dangling (msgs : List InternalMessage) (e : Bool)
    (hu : ∀ m ∈ msgs, ∀ b ∈ m.content, isToolResult b = true → m.role = .user)
    (h : toolResultsReferenced msgs = true) :
    toolResultsReferenced (filterMessagesWithoutThinking msgs e) = true := by
  cases e with
  | false => exact h
  | true =>
    unfold toolResultsReferenced at h
    rw [List.all_eq_true] at h
    unfold filterMessagesWithoutThinking
    rw [if_neg (by decide)]
    split
    · rename_i hlen
      unfold toolResultsReferenced
      rw [List.all_eq_true]
      intro m' hm'
      rw [List.all_eq_true]
      intro b hb
      obtain ⟨m0, hm0K, hrole, hsub, hkeep⟩ := secondPass_source hm'
      have hm0msgs : m0 ∈ msgs := (List.mem_filter.mp hm0K).1
      have hbm0 : b ∈ m0.content := hsub b hb
      cases b with
      | toolResult tid content =>
        have hm0role : m0.role = .user := hu m0 hm0msgs _ hbm0 rfl
        have hkb : keepBlock (collectFold (msgs.filter removeAssistantB))
            (.toolResult tid content) = true := hkeep hm0role _ hb
        have hnR : tid ∉ collectFold (msgs.filter removeAssistantB) := by
          intro hx
          have hkb' : (if tid ∈ collectFold (msgs.filter removeAssistantB) then false
              else true) = true := hkb
          rw [if_pos hx] at hkb'
          exact absurd hkb' (by simp)
        have hmsgs : tid ∈ assistantToolUseIds msgs := by
          have := (List.all_eq_true.mp (h m0 hm0msgs)) _ hbm0
          unfold toolResultOk at this
          exact of_decide_eq_true this
        show toolResultOk _ (.toolResult tid content) = true
        unfold toolResultOk
        exact decide_eq_true (secondPass_assistant_id (kept_assistant_id hmsgs hnR))
      | text a => rfl
      | thinking a si => rfl
      | redactedThinking a => rfl
      | toolUse i n inp => rfl
    · rename_i hlen
      have hR : collectFold (msgs.filter removeAssistantB) = [] := by
        rcases Nat.eq_zero_or_pos (collectFold (msgs.filter removeAssistantB)).length with
          hz | hp
        · exact List.length_eq_zero.mp hz
        · exact absurd hp hlen
      unfold toolResultsReferenced
      rw [List.all_eq_true]
      intro m' hm'
      rw [List.all_eq_true]
      intro b hb
      have hm0msgs : m' ∈ msgs := (List.mem_filter.mp hm').1
      cases b with
      | toolResult tid content =>
        have hmsgs : tid ∈ assistantToolUseIds msgs := by
          have := (List.all_eq_true.mp (h m' hm0msgs)) _ hb
          unfold toolResultOk at this
          exact of_decide_eq_true this
        have hnR : tid ∉ collectFold (msgs.filter removeAssistantB) := by
          rw [hR]
          simp
        show toolResultOk _ (.toolResult tid content) = true
        unfold toolResultOk
        exact decide_eq_true (kept_assistant_id hmsgs hnR)
      | text a => rfl
      | thinking a si => rfl
      | redactedThinking a => rfl
      | toolUse i n inp => rfl

/-- The C4 witness input: a removable assistant turn and its answering
user turn. -/
def c4wreq : List InternalMessage :=
  [⟨.assistant, [.toolUse (some "t") none none]⟩,
   ⟨.user, [.toolResult (some "t") "r"]⟩]

/-- C4 (witness): the amended statement at a concrete well-formed input. -/
theorem c4_witness :
    toolResultsReferenced c4wreq = true ∧
    toolResultsReferenced (filterMessagesWithoutThinking c4wreq true) = true :=
  ⟨rfl, c4_no_new_dangling c4wreq true (by decide) rfl⟩

/-! ## C5: the format detector's characterization -/

/-- C5: `isAnthropicFormat` classifies a request as dialect A exactly when an
explicit `system` field is present, or the first tool definition carries an
`input_schema` key, or some message has array content containing a block
whose discriminant is `tool_use` or `tool_result`. -/
theorem c5_detector (r : Request) :
    isAnthropicFormat r = true ↔
      (r.system.isSome = true ∨
       (∃ t ts, r.tools = some (t :: ts) ∧ t.input_schema.isSome = true) ∨
       (∃ m ∈ r.messages, ∃ bs, m.content = some (.blocks bs) ∧
          ∃ b ∈ bs, b.type = "tool_use" ∨ b.type = "tool_result")) := by
  by_cases h1 : r.system.isSome = true
  · simp only [isAnthropicFormat, h1, if_pos]
    simp [h1]
  · by_cases h2 : (match r.tools with
                   | some (t :: _) => t.input_schema.isSome
                   | _ => false) = true
    · have hR : ∃ t ts, r.tools = some (t :: ts) ∧ t.input_schema.isSome = true := by
        cases ht : r.tools with
        | none => rw [ht] at h2; simp at h2
        | some l =>
          cases l with
          | nil => rw [ht] at h2; simp at h2
          | cons t ts =>
            rw [ht] at h2
            exact ⟨t, ts, rfl, h2⟩
      constructor
      · intro _
        exact Or.inr (Or.inl hR)
      · intro _
        unfold isAnthropicFormat
        rw [if_neg (by simp [h1]), if_pos h2]
    · unfold isAnthropicFormat
      rw [if_neg (by simp [h1]), if_neg (by simp [h2])]
      rw [List.any_eq_true]
      constructor
      · rintro ⟨m, hm, hmb⟩
        refine Or.inr (Or.inr ⟨m, hm, ?_⟩)
        cases hc : m.content with
        | none => rw [hc] at hmb; simp at hmb
        | some mc =>
          cases mc with
          | str str => rw [hc] at hmb; simp at hmb
          | blocks bs =>
            rw [hc] at hmb
            have hany : bs.any (fun b => b.type == "tool_use" || b.type == "tool_result") =
                true := hmb
            rw [List.any_eq_true] at hany
            obtain ⟨b, hb, hbt⟩ := hany
            rw [Bool.or_eq_true, beq_iff_eq, beq_iff_eq] at hbt
            exact ⟨bs, rfl, b, hb, hbt⟩
      · rintro (hx | hx | ⟨m, hm, bs, hc, b, hb, hbt⟩)
        · exact absurd hx h1
        · exact absurd (by
            obtain ⟨t, ts, ht, hti⟩ := hx
            rw [ht]
            exact hti) h2
        · refine ⟨m, hm, ?_⟩
          rw [hc]
          show bs.any (fun b => b.type == "tool_use" || b.type == "tool_result") = true
          rw [List.any_eq_true]
          exact ⟨b, hb, by rw [Bool.or_eq_true, beq_iff_eq, beq_iff_eq]; exact hbt⟩

/-! ## C6: model-name mapping -/

/-- The C6 scenario request. -/
def c6req : Request :=
  { model := "claude-4.5-opus-high-thinking"
    messages := [{ role := "user", content := some (.str "hi") }] }

/-- C6: the scenario request (dialect B) normalizes to the canonical opus
model id with `maxThinkingTokens = 10000`; and every model identifier not in
the static table passes through unchanged, with reasoning enabled exactly
when the lowercased identifier contains the substring `"thinking"`. -/
theorem c6_model_mapping :
    (isAnthropicFormat c6req = false ∧
     toInternal c6req = .ok
       { messages := [⟨.user, [.text "hi"]⟩]
         tools := none
         model := "claude-opus-4-5-20251101"
         maxTokens := 4096
         system := none
         stream := false
         temperature := none
         maxThinkingTokens := some 10000 }) ∧
    (∀ m : String, m ∉ modelMapKeys → mapModelName m = ⟨m, containsThinking m⟩) := by
  refine ⟨⟨rfl, rfl⟩, ?_⟩
  intro m hm
  simp only [modelMapKeys, List.mem_cons, List.mem_singleton, not_or] at hm
  obtain ⟨h1, h2, h3, h4, h5, h6, h7, h8, -⟩ := hm
  unfold mapModelName
  rw [if_neg h1, if_neg h2, if_neg h3, if_neg h4, if_neg h5, if_neg h6, if_neg h7,
    if_neg h8]

/-- C6 (witness): an identifier outside the table passes through with
reasoning inferred from the `"thinking"` substring. -/
theorem c6_witness :
    "my-model-thinking" ∉ modelMapKeys ∧
    mapModelName "my-model-thinking" = ⟨"my-model-thinking", true⟩ := by
  refine ⟨by decide, ?_⟩
  rw [c6_model_mapping.2 "my-model-thinking" (by decide)]
  rfl

/-! ## C7: malformed tool-call arguments are a hard error -/

theorem convToolCall_err {tc : ToolCall} {a : String}
    (ha : tc.function.arguments = some a) (hne : a ≠ "")
    (hp : isErr (jsonParse a) = true) : isErr (convToolCall tc) = true := by
  unfold convToolCall
  rw [show jsOrStr tc.function.arguments "{}" = a by
    rw [ha]
    show (if a = "" then "{}" else a) = a
    rw [if_neg hne]]
  cases hj : jsonParse a with
  | error e => rfl
  | ok v =>
    rw [hj] at hp
    exact absurd hp (by simp [isErr])

theorem mapMexc_err {α β : Type} {f : α → Except String β} {l : List α} {x : α}
    (hmem : x ∈ l) (herr : isErr (f x) = true) : isErr (mapMexc f l) = true := by
  induction l with
  | nil => simp at hmem
  | cons hd tl ih =>
    unfold mapMexc
    rcases List.mem_cons.mp hmem with heq | htl
    · subst heq
      cases hf : f x with
      | error e => rfl
      | ok b =>
        rw [hf] at herr
        exact absurd herr (by simp [isErr])
    · cases hf : f hd with
      | error e => rfl
      | ok b =>
        cases hm : mapMexc f tl with
        | error e => rfl
        | ok bs =>
          have := ih htl
          rw [hm] at this
          exact absurd this (by simp [isErr])

theorem openaiLoop_err {msgs : List Message} {msg : Message} {tcs : List ToolCall}
    {tc : ToolCall} {a : String}
    (hmem : msg ∈ msgs) (hrole : msg.role = "assistant")
    (htc : msg.tool_calls = some tcs) (htcm : tc ∈ tcs)
    (ha : tc.function.arguments = some a) (hne : a ≠ "")
    (hp : isErr (jsonParse a) = true) :
    ∀ acc sys, isErr (openaiLoop msgs acc sys) = true := by
  induction msgs with
  | nil => simp at hmem
  | cons m rest ih =>
    intro acc sys
    rcases List.mem_cons.mp hmem with heq | htl
    · subst heq
      unfold openaiLoop
      rw [if_neg (by rw [hrole]; decide), if_neg (by rw [hrole]; decide), if_pos hrole]
      rw [show assistantToolBlocks msg.tool_calls = mapMexc convToolCall tcs by
        rw [htc]
        rfl]
      have herr : isErr (mapMexc convToolCall tcs) = true :=
        mapMexc_err htcm (convToolCall_err ha hne hp)
      cases hmm : mapMexc convToolCall tcs with
      | error e => rfl
      | ok bs =>
        rw [hmm] at herr
        exact absurd herr (by simp [isErr])
    · unfold openaiLoop
      split
      · exact ih htl _ _
      · split
        · exact ih htl _ _
        · split
          · cases hmm : assistantToolBlocks m.tool_calls with
            | error e => rfl
            | ok bs => exact ih htl _ _
          · split
            · split
              · split
                · exact ih htl _ _
                · exact ih htl _ _
              · exact ih htl _ _
            · exact ih htl _ _

/-- C7: on the dialect-B path, an assistant tool-call whose arguments string
is present but not valid JSON makes normalization throw (the request is
never silently accepted), while an absent or empty arguments string yields a
`tool_use` block with an empty object map, without error. -/
theorem c7_tool_arguments :
    (∀ (r : Request) (msg : Message) (tcs : List ToolCall) (tc : ToolCall) (a : String),
        msg ∈ r.messages → msg.role = "assistant" → msg.tool_calls = some tcs →
        tc ∈ tcs → tc.function.arguments = some a → a ≠ "" →
        isErr (jsonParse a) = true → isErr (openaiToInternal r) = true) ∧
    (∀ tc : ToolCall, (tc.function.arguments = none ∨ tc.function.arguments = some "") →
        convToolCall tc = .ok (.toolUse (some tc.id) (some tc.function.name)
          (some (.obj [])))) := by
  constructor
  · intro r msg tcs tc a hmem hrole htc htcm ha hne hp
    have hloop := openaiLoop_err hmem hrole htc htcm ha hne hp [] none
    unfold openaiToInternal
    cases hl : openaiLoop r.messages [] none with
    | error e => rfl
    | ok p =>
      rw [hl] at hloop
      exact absurd hloop (by simp [isErr])
  · intro tc h
    unfold convToolCall
    rcases h with h | h <;> rw [h] <;> rfl

/-- The C7 witness request: one assistant turn with an unparsable tool-call
argument payload. -/
def c7req : Request :=
  { model := "m"
    messages := [{ role := "assistant", tool_calls := some [⟨"t1", ⟨"f", some "not json"⟩⟩] }] }

/-- C7 (witness): `"not json"` fails to parse and the whole normalization
throws; an empty arguments string yields an empty object map. -/
theorem c7_witness :
    isErr (jsonParse "not json") = true ∧
    isErr (openaiToInternal c7req) = true ∧
    convToolCall ⟨"t1", ⟨"f", some ""⟩⟩ =
      .ok (.toolUse (some "t1") (some "f") (some (.obj []))) :=
  ⟨rfl,
   c7_tool_arguments.1 c7req _ [⟨"t1", ⟨"f", some "not json"⟩⟩] ⟨"t1", ⟨"f", some "not json"⟩⟩
     "not json" (List.Mem.head _) rfl rfl (List.Mem.head _) rfl (by decide) rfl,
   c7_tool_arguments.2 ⟨"t1", ⟨"f", some ""⟩⟩ (Or.inr rfl)⟩

/-! ## C8: normalized messages have non-empty content -/

theorem anthropicToInternal_messages (r : Request) :
    (anthropicToInternal r).messages =
      filterMessagesWithoutThinking
        (anthropicLoop r.messages [] (anthropicSystemPrompt r)).1
        (mapModelName r.model).enableThinking := rfl

theorem push_nonempty {acc : List InternalMessage} {ro : Role}
    {content : List InternalContentBlock}
    (hacc : ∀ m ∈ acc, m.content ≠ []) :
    ∀ m ∈ (if content.isEmpty then acc else acc ++ [⟨ro, content⟩]), m.content ≠ [] := by
  split
  · exact hacc
  · rename_i hne
    intro m hm
    rcases List.mem_append.mp hm with h | h
    · exact hacc m h
    · rw [List.mem_singleton] at h
      subst h
      show content ≠ []
      intro hx
      rw [hx] at hne
      exact hne rfl

theorem anthropicLoop_nonempty {msgs : List Message} :
    ∀ {acc : List InternalMessage} {sys : Option String},
      (∀ m ∈ acc, m.content ≠ []) →
      ∀ m ∈ (anthropicLoop msgs acc sys).1, m.content ≠ [] := by
  induction msgs with
  | nil => intro acc sys hacc; exact hacc
  | cons msg rest ih =>
    intro acc sys hacc
    unfold anthropicLoop
    split
    · exact ih hacc
    · split
      · exact ih (push_nonempty hacc)
      · split
        · exact ih (push_nonempty hacc)
        · exact ih hacc

theorem filter_nonempty {msgs : List InternalMessage} {e : Bool}
    (h : ∀ m ∈ msgs, m.content ≠ []) :
    ∀ m ∈ filterMessagesWithoutThinking msgs e, m.content ≠ [] := by
  unfold filterMessagesWithoutThinking
  split
  · exact h
  · split
    · intro m hm
      rw [List.mem_filterMap] at hm
      obtain ⟨m0, hm0, hf⟩ := hm
      unfold secondPass at hf
      split at hf
      · split at hf
        · exact absurd hf (by simp)
        · rename_i hlen
          rw [Option.some.injEq] at hf
          subst hf
          show m0.content.filter
            (keepBlock (collectFold (msgs.filter removeAssistantB))) ≠ []
          intro hx
          apply hlen
          rw [hx]
          rfl
      · rw [Option.some.injEq] at hf
        subst hf
        exact h m0 (List.mem_filter.mp hm0).1
    · intro m hm
      exact h m (List.mem_filter.mp hm).1

theorem openaiLoop_nonempty {msgs : List Message} :
    ∀ {acc : List InternalMessage} {sys : Option String} {msgs' : List InternalMessage}
      {sys' : Option String},
      (∀ m ∈ acc, m.content ≠ []) →
      openaiLoop msgs acc sys = .ok (msgs', sys') →
      ∀ m ∈ msgs', m.content ≠ [] := by
  induction msgs with
  | nil =>
    intro acc sys msgs' sys' hacc h
    rw [show openaiLoop [] acc sys = .ok (acc, sys) from rfl] at h
    rw [Except.ok.injEq, Prod.mk.injEq] at h
    rw [← h.1]
    exact hacc
  | cons msg rest ih =>
    intro acc sys msgs' sys' hacc h
    unfold openaiLoop at h
    split at h
    · exact ih hacc h
    · split at h
      · exact ih (push_nonempty hacc) h
      · split at h
        · split at h
          · exact absurd h (by simp)
          · exact ih (push_nonempty hacc) h
        · split at h
          · split at h
            · split at h
              · exact ih hacc h
              · refine ih ?_ h
                intro m hm
                rcases List.mem_append.mp hm with hx | hx
                · exact hacc m hx
                · rw [List.mem_singleton] at hx
                  subst hx
                  simp
            · exact ih hacc h
          · exact ih hacc h

/-- C8: every Internal Message in the normalized output of either dialect
path has a non-empty content sequence (empty-content messages are dropped by
the normalizers and by the second pass of the filter, never forwarded). -/
theorem c8_nonempty_content (r : Request) (m : InternalMessage) :
    (m ∈ (anthropicToInternal r).messages → m.content ≠ []) ∧
    (∀ ir, openaiToInternal r = .ok ir → m ∈ ir.messages → m.content ≠ []) := by
  constructor
  · intro hm
    rw [anthropicToInternal_messages] at hm
    exact filter_nonempty (anthropicLoop_nonempty (by simp)) m hm
  · intro ir hir hm
    unfold openaiToInternal at hir
    split at hir
    · exact absurd hir (by simp)
    · rename_i ms sy hl
      split at hir
      · exact absurd hir (by simp)
      · rw [Except.ok.injEq] at hir
        subst hir
        have hm2 : m ∈ filterMessagesWithoutThinking ms
            (mapModelName r.model).enableThinking := hm
        exact filter_nonempty (openaiLoop_nonempty (by simp) hl) m hm2

/-- The C8 witness request. -/
def c8req : Request :=
  { model := "m", messages := [{ role := "user", content := some (.str "hi") }] }

/-- C8 (witness): the invariant at a concrete normalized message. -/
theorem c8_witness :
    (anthropicToInternal c8req).messages = [⟨.user, [.text "hi"]⟩] ∧
    ([InternalContentBlock.text "hi"] : List InternalContentBlock) ≠ [] := by
  refine ⟨rfl, ?_⟩
  have hmem : (⟨.user, [.text "hi"]⟩ : InternalMessage) ∈
      (anthropicToInternal c8req).messages := by
    show (⟨.user, [.text "hi"]⟩ : InternalMessage) ∈
      [(⟨.user, [.text "hi"]⟩ : InternalMessage)]
    exact List.mem_singleton.mpr rfl
  exact (c8_nonempty_content c8req ⟨.user, [.text "hi"]⟩).1 hmem

/-! ## C9: native thinking blocks are preserved on the dialect-A path -/

theorem anthropicAssistantContent_cons (b : Block) (bs : List Block) :
    anthropicAssistantContent (b :: bs) =
      (if b.type = "text" then parseThinkingFromText (b.text.getD "")
       else if b.type = "thinking" then
         [InternalContentBlock.thinking (b.thinking.getD "") (truthySig b.signature)]
       else if b.type = "tool_use" then
         [InternalContentBlock.toolUse b.id b.name b.input]
       else []) ++ anthropicAssistantContent bs := rfl

theorem assistantContent_mem {bs : List Block} {b : Block} {th : String}
    (hb : b ∈ bs) (ht : b.type = "thinking") (hth : b.thinking = some th) :
    InternalContentBlock.thinking th (truthySig b.signature) ∈
      anthropicAssistantContent bs := by
  induction bs with
  | nil => simp at hb
  | cons x xs ih =>
    rw [anthropicAssistantContent_cons]
    rw [List.mem_append]
    rcases List.mem_cons.mp hb with heq | htail
    · subst heq
      left
      rw [if_neg (by rw [ht]; decide), if_pos ht]
      rw [hth]
      exact List.mem_singleton.mpr rfl
    · exact Or.inr (ih htail)

theorem anthropicLoop_acc_mono {msgs : List Message} :
    ∀ {acc : List InternalMessage} {sys : Option String} {m : InternalMessage},
      m ∈ acc → m ∈ (anthropicLoop msgs acc sys).1 := by
  induction msgs with
  | nil => intro acc sys m hm; exact hm
  | cons msg rest ih =>
    intro acc sys m hm
    unfold anthropicLoop
    split
    · exact ih hm
    · split
      · apply ih
        split
        · exact hm
        · exact List.mem_append.mpr (Or.inl hm)
      · split
        · apply ih
          split
          · exact hm
          · exact List.mem_append.mpr (Or.inl hm)
        · exact ih hm

theorem anthropicLoop_assistant_mem {msgs : List Message} {msg : Message}
    {bs : List Block} {blk : InternalContentBlock}
    (hmem : msg ∈ msgs) (hrole : msg.role = "assistant")
    (hc : msg.content = some (.blocks bs)) (hblk : blk ∈ anthropicAssistantContent bs) :
    ∀ (acc : List InternalMessage) (sys : Option String),
      ∃ im ∈ (anthropicLoop msgs acc sys).1, im.role = .assistant ∧ blk ∈ im.content := by
  induction msgs with
  | nil => simp at hmem
  | cons m rest ih =>
    intro acc sys
    rcases List.mem_cons.mp hmem with heq | htail
    · subst heq
      unfold anthropicLoop
      rw [if_neg (by rw [hrole]; decide), if_neg (by rw [hrole]; decide), if_pos hrole]
      rw [show (match msg.content with
            | some (.blocks bs) => anthropicAssistantContent bs
            | other =>
              let t := extractTextContent other
              if t = "" then [] else parseThinkingFromText t) =
          anthropicAssistantContent bs by rw [hc]]
      have hne : (anthropicAssistantContent bs).isEmpty = false := by
        cases hx : anthropicAssistantContent bs with
        | nil => rw [hx] at hblk; simp at hblk
        | cons y ys => rfl
      show ∃ im ∈ (anthropicLoop rest
          (if (anthropicAssistantContent bs).isEmpty = true then acc
           else acc ++ [⟨.assistant, anthropicAssistantContent bs⟩]) sys).1,
        im.role = .assistant ∧ blk ∈ im.content
      rw [if_neg (show ¬((anthropicAssistantContent bs).isEmpty = true) by
        rw [hne]; decide)]
      refine ⟨⟨.assistant, anthropicAssistantContent bs⟩, ?_, rfl, hblk⟩
      exact anthropicLoop_acc_mono (List.mem_append.mpr (Or.inr (List.mem_singleton.mpr rfl)))
    · unfold anthropicLoop
      split
      · exact ih htail _ _
      · split
        · exact ih htail _ _
        · split
          · exact ih htail _ _
          · exact ih htail _ _

theorem filter_keeps_assistant {msgs : List InternalMessage} {e : Bool}
    {m : InternalMessage} (hm : m ∈ msgs) (hrole : m.role = .assistant)
    (hth : msgHasThinking m = true) : m ∈ filterMessagesWithoutThinking msgs e := by
  have hkeep : removeAssistantB m = false := by
    unfold removeAssistantB
    rw [hth]
    simp
  unfold filterMessagesWithoutThinking
  split
  · exact hm
  · have hmf : m ∈ msgs.filter fun x => !(removeAssistantB x) :=
      List.mem_filter.mpr ⟨hm, by rw [hkeep]; rfl⟩
    split
    · rw [List.mem_filterMap]
      exact ⟨m, hmf, secondPass_assistant hrole⟩
    · exact hmf

/-- C9: on the dialect-A path, every native `thinking` block of an assistant
turn is preserved into the normalized output: some assistant Internal Message
of the output contains a thinking block with the same text and, when the
block carries a (truthy) signature, the same signature — the code's
conditional spread, modeled by `truthySig`. -/
theorem c9_native_thinking_preserved (r : Request) (msg : Message)
    (bs : List Block) (b : Block) (th : String)
    (hmem : msg ∈ r.messages) (hrole : msg.role = "assistant")
    (hc : msg.content = some (.blocks bs)) (hb : b ∈ bs) (ht : b.type = "thinking")
    (hth : b.thinking = some th) :
    ∃ im ∈ (anthropicToInternal r).messages,
      im.role = .assistant ∧
        InternalContentBlock.thinking th (truthySig b.signature) ∈ im.content := by
  have hblk := assistantContent_mem hb ht hth
  obtain ⟨im, himem, hirole, hiblk⟩ :=
    anthropicLoop_assistant_mem hmem hrole hc hblk [] (anthropicSystemPrompt r)
  have hthk : msgHasThinking im = true :=
    List.any_eq_true.mpr ⟨_, hiblk, rfl⟩
  refine ⟨im, ?_, hirole, hiblk⟩
  rw [anthropicToInternal_messages]
  exact filter_keeps_assistant himem hirole hthk

/-- The C9 witness request: one assistant turn with a signed and a
signatureless native thinking block. -/
def c9req : Request :=
  { model := "m"
    messages :=
      [{ role := "assistant"
         content := some (.blocks
           [Block.mk "thinking" none none none none none none (some "why") (some "sig"),
            Block.mk "thinking" none none none none none none (some "also") none]) }] }

/-- C9 (witness): preservation at a concrete request, both with and without
a signature. -/
theorem c9_witness :
    (∃ im ∈ (anthropicToInternal c9req).messages,
      im.role = .assistant ∧
        InternalContentBlock.thinking "why" (some "sig") ∈ im.content) ∧
    (∃ im ∈ (anthropicToInternal c9req).messages,
      im.role = .assistant ∧
        InternalContentBlock.thinking "also" none ∈ im.content) :=
  ⟨c9_native_thinking_preserved c9req _
    [Block.mk "thinking" none none none none none none (some "why") (some "sig"),
     Block.mk "thinking" none none none none none none (some "also") none]
    (Block.mk "thinking" none none none none none none (some "why") (some "sig"))
    "why" (List.Mem.head _) rfl rfl (List.Mem.head _) rfl rfl,
   c9_native_thinking_preserved c9req _
    [Block.mk "thinking" none none none none none none (some "why") (some "sig"),
     Block.mk "thinking" none none none none none none (some "also") none]
    (Block.mk "thinking" none none none none none none (some "also") none)
    "also" (List.Mem.head _) rfl rfl (List.Mem.tail _ (List.Mem.head _)) rfl rfl⟩

/-! ## C10: a zero max_tokens falls back to the default -/

theorem anthropicToInternal_maxTokens (r : Request) :
    (anthropicToInternal r).maxTokens = jsOrNum r.max_tokens 4096 := rfl

/-- C10: a request whose `max_tokens` equals 0 (a falsy value, not merely an
absent one) normalizes with `maxTokens = 4096` on either dialect path. -/
theorem c10_max_tokens_default (r : Request) (h : r.max_tokens = some 0) :
    (anthropicToInternal r).maxTokens = 4096 ∧
    (∀ ir, openaiToInternal r = .ok ir → ir.maxTokens = 4096) := by
  constructor
  · rw [anthropicToInternal_maxTokens, h]
    rfl
  · intro ir hir
    unfold openaiToInternal at hir
    split at hir
    · exact absurd hir (by simp)
    · split at hir
      · exact absurd hir (by simp)
      · rw [Except.ok.injEq] at hir
        subst hir
        show jsOrNum r.max_tokens 4096 = 4096
        rw [h]
        rfl

/-- The C10 witness request. -/
def c10req : Request :=
  { model := "m", messages := [{ role := "user", content := some (.str "hi") }]
    max_tokens := some 0 }

/-- C10 (witness): the default at a concrete request with `max_tokens = 0`. -/
theorem c10_witness :
    c10req.max_tokens = some 0 ∧ (anthropicToInternal c10req).maxTokens = 4096 :=
  ⟨rfl, (c10_max_tokens_default c10req rfl).1⟩

end Proxy